/-
Verification of the gacha-fetch backend (gacha_fetcher.py + app.py).

The Python dictionaries that flow through the pipeline are modelled by the
structure `PRec`, which carries exactly the keys the verified code paths
read.  `r.get(k)` on a possibly-absent key becomes an `Option` field;
Python truthiness on such a field (None and "" / 0 are falsy) is made
explicit at each use site.  The vendor's `rank_type` is a numeric string
in the wire format; it is modelled by the integer it parses to (absent =
`none`).  Timestamps are epoch-second integers (`_ts` in the source, `ts`
here).  Floating-point rate fields of the stats payloads are not modelled;
no verified property mentions them.
-/
import Mathlib

namespace GachaFetch

/-- One pull record, the shallow embedding of the row dictionaries of
`gacha_fetcher.py` / `app.py`.  Absent keys are `none`. -/
structure PRec where
  id : Option String := none
  name : String := ""
  rarity : Option Int := none
  rank_type : Option Int := none
  banner : Option String := none
  banner_label : Option String := none
  gacha_type_name : Option String := none
  ts : Option Int := none
  deriving DecidableEq, Repr

/-- `GACHA_TYPES` of gacha_fetcher.py: static banner code → label table. -/
def GACHA_TYPES : List (String × String) :=
  [("100", "Beginner"), ("200", "Standard"), ("301", "Character Event"),
   ("302", "Weapon Event"), ("500", "Chronicled")]

/-- The labels of the static banner-category table, in table order. -/
def staticLabels : List String := GACHA_TYPES.map Prod.snd

/-- The dedup loop of `dedupe_and_sort` (gacha_fetcher.py:87-92): keep a
record when its `id` is truthy (present and non-empty) and not yet seen;
`seen` accumulates the kept ids. -/
def dedupeAux : List PRec → List String → List PRec
  | [], _ => []
  | r :: rest, seen =>
    match r.id with
    | some rid =>
      if rid ≠ "" ∧ rid ∉ seen then r :: dedupeAux rest (rid :: seen)
      else dedupeAux rest seen
    | none => dedupeAux rest seen

/-- Sort key of gacha_fetcher.py:94: `(r.get("_ts", 0), r.get("id", ""))`. -/
def keyOf (r : PRec) : Int × String := (r.ts.getD 0, r.id.getD "")

/-- Python's string `<`: lexicographic comparison of the code points. -/
def strLtChars : List Char → List Char → Bool
  | [], [] => false
  | [], _ :: _ => true
  | _ :: _, [] => false
  | a :: s, b :: t => if a = b then strLtChars s t else decide (a.toNat < b.toNat)

/-- Python's string `<` on `String`. -/
def pyStrLtB (s t : String) : Bool := strLtChars s.data t.data

/-- Python's string `<=`. -/
def pyStrLeB (s t : String) : Bool := pyStrLtB s t || s == t

/-- Python's `<=` on an `(int, str)` tuple: lexicographic. -/
def tupLeB (x y : Int × String) : Bool :=
  decide (x.1 < y.1) || (decide (x.1 = y.1) && pyStrLeB x.2 y.2)

/-- `tupLeB` as a proposition. -/
def tupLe (x y : Int × String) : Prop := tupLeB x y = true

instance : DecidableRel tupLe := fun x y => by
  unfold tupLe; infer_instance

/-- The comparison realised by `out.sort(key=..., reverse=True)`: `a`
may precede `b` when `a`'s key is ≥ `b`'s key. -/
def rowGeB (a b : PRec) : Bool := tupLeB (keyOf b) (keyOf a)

/-- Insert into a list sorted by `le`, keeping `a` before equal keys
(Python's sort is stable, also with `reverse=True`). -/
def insertLe {α : Type} (le : α → α → Bool) (a : α) : List α → List α
  | [] => [a]
  | b :: l => if le a b then a :: b :: l else b :: insertLe le a l

/-- Stable insertion sort by a boolean comparison. -/
def sortLe {α : Type} (le : α → α → Bool) : List α → List α
  | [] => []
  | a :: l => insertLe le a (sortLe le l)

/-- `dedupe_and_sort` (gacha_fetcher.py:85-95): dedupe by truthy `id`
(first occurrence wins), then sort newest-first, descending by
`(_ts, id)`. -/
def dedupe_and_sort (all_rows : List PRec) : List PRec :=
  sortLe rowGeB (dedupeAux all_rows [])

/-- The truthy id of a record, if any: `some s` when `id` is present and
non-empty, else `none` (Python: `rid and ...`). -/
def truthyId (r : PRec) : Option String :=
  match r.id with
  | some s => if s = "" then none else some s
  | none => none

/-- First-occurrence dedup of a list of ids, relative to already-seen ids. -/
def firstDedup (seen : List String) : List String → List String
  | [] => []
  | s :: rest => if s ∈ seen then firstDedup seen rest else s :: firstDedup (s :: seen) rest

/-! ### Category Paginator (`fetch_banner`, gacha_fetcher.py:53-83)

The upstream HTTP interaction is modelled by an oracle: the list of the
responses the successive `_request_json` calls would produce.  `none`
models a call that raises (network failure, timeout, non-2xx status);
`some dataRows` models a successful call whose
`(js.get("data") or {}).get("list") or []` is `dataRows`.  An exhausted
oracle behaves like a failing request. -/

/-- A raw vendor row as consumed by the per-row transform.  `id` is
required by the source (`data_rows[-1]["id"]` would raise otherwise);
`rank_type` is the integer value of the vendor's numeric-string rank
(absent = `none`); `time_parse` is the best-effort result of parsing the
row's `time` string (`none` when `strptime` would raise). -/
structure Raw where
  id : String
  name : String := ""
  rank_type : Option Int := none
  time_parse : Option Int := none
  deriving DecidableEq, Repr

/-- The per-row transform of gacha_fetcher.py:68-77: tag `banner`,
`banner_label` (static table lookup, falling back to the code),
integer `rarity` (default 0), and `_ts` (0 on parse failure). -/
def transformRow (gacha_type : String) (r : Raw) : PRec :=
  { id := some r.id
    name := r.name
    rarity := some (r.rank_type.getD 0)
    rank_type := r.rank_type
    banner := some gacha_type
    banner_label := some ((GACHA_TYPES.lookup gacha_type).getD gacha_type)
    ts := some (r.time_parse.getD 0) }

/-- The pagination loop of `fetch_banner`: one oracle entry per request;
`page` and `endId` mirror the cursor state (they feed only the request
URL, which the oracle abstracts). -/
def fetchLoop (gacha_type : String) :
    List (Option (List Raw)) → List PRec → Nat → Option String → List PRec
  | [], rows, _, _ => rows
  | none :: _, rows, _, _ => rows
  | some dataRows :: rest, rows, page, _ =>
    if dataRows = [] then rows
    else
      fetchLoop gacha_type rest (rows ++ dataRows.map (transformRow gacha_type))
        (page + 1) (dataRows.getLast?.map Raw.id)

/-- `fetch_banner`: start at page 1 with no cursor and an empty row list. -/
def fetch_banner (gacha_type : String) (oracle : List (Option (List Raw))) :
    List PRec :=
  fetchLoop gacha_type oracle [] 1 none

/-! ### Statistics Engine, variant 1: `calc_stats` (gacha_fetcher.py:120-140)

Only the pity map is modelled; the float-valued rate fields are omitted
(no verified property mentions them). -/

/-- The inner loop of `calc_stats` for one label: scan the rows, skip
records of other labels, stop at the first 5★ of the label, count the
rest.  Matches gacha_fetcher.py:126-132 (the per-iteration increment is
tallied by the recursion). -/
def calcPityCount (label : String) : List PRec → Nat
  | [] => 0
  | r :: rest =>
    if r.banner_label ≠ some label then calcPityCount label rest
    else if r.rarity = some 5 then 0
    else calcPityCount label rest + 1

/-- The pity dictionary of `calc_stats`: seeded with every label of the
static table (`{label: 0 for label in GACHA_TYPES.values()}`), then each
label's count is computed by the scan. -/
def calc_stats_pity (rows : List PRec) : List (String × Nat) :=
  GACHA_TYPES.map (fun kv => (kv.2, calcPityCount kv.2 rows))

/-! ### Statistics Engine, variant 2: `api_stats` (app.py:98-151) -/

/-- Python `a or b` on two possibly-absent strings: the first operand if
it is truthy (present and non-empty), else the second, verbatim. -/
def pyOrS : Option String → Option String → Option String
  | some s, b => if s = "" then b else some s
  | none, b => b

/-- The label fallback chain of app.py:132/136:
`r.get("banner_label") or r.get("gacha_type_name") or r.get("banner")`. -/
def labelOf (r : PRec) : Option String :=
  pyOrS r.banner_label (pyOrS r.gacha_type_name r.banner)

/-- The rarity-normalisation pass of app.py:105-110: when the `rarity`
key is absent, set it to `int(r.get("rank_type", 0))` (0 when absent;
the `except` branch for an unparseable string is absorbed by modelling
`rank_type` as its parsed integer value). -/
def normRow (r : PRec) : PRec :=
  if r.rarity = none then { r with rarity := some (r.rank_type.getD 0) } else r

/-- Python truthiness of an `_ts` value: present and non-zero. -/
def tsTruthy : Option Int → Bool
  | some v => v ≠ 0
  | none => false

/-- The order heuristic of app.py:119-122: when the list is non-empty and
both endpoint timestamps are truthy, the list counts as newest-first iff
the first timestamp is ≥ the last; otherwise it is assumed newest-first.
(The `except` branch of the source is unreachable: the guard rules out
the index errors and the comparison is between plain integers.) -/
def orderedNewestFirst (rows : List PRec) : Bool :=
  match rows.head?, rows.getLast? with
  | some r0, some rn =>
    if tsTruthy rn.ts ∧ tsTruthy r0.ts then decide (r0.ts.getD 0 ≥ rn.ts.getD 0)
    else true
  | _, _ => true

/-- app.py:123-126: reverse the rows when the heuristic says they are
oldest-first. -/
def rowsSorted (rows : List PRec) : List PRec :=
  if orderedNewestFirst rows then rows else rows.reverse

/-- An order on possibly-absent labels, `none` first, strings by Python's
lexicographic `<=`.  (CPython's `sorted` would raise on a set mixing
`None` with strings; on all-string label sets — the only ones produced by
well-formed histories — this matches `sorted`.) -/
def optLeB : Option String → Option String → Bool
  | none, _ => true
  | some _, none => false
  | some s, some t => pyStrLeB s t

/-- The label universe of app.py:132: the distinct labels occurring in
the (order-corrected) rows, sorted — `sorted({labelOf r for r in rows})`. -/
def labelsSorted (rows : List PRec) : List (Option String) :=
  sortLe optLeB ((rows.map labelOf).dedup)

/-- The inner pity loop of app.py:133-142 for one label, with the
`int(r.get("rarity") or 0) == 5` stop test. -/
def apiPityCount (label : Option String) : List PRec → Nat
  | [] => 0
  | r :: rest =>
    if labelOf r ≠ label then apiPityCount label rest
    else if r.rarity.getD 0 = 5 then 0
    else apiPityCount label rest + 1

/-- The pity dictionary of `api_stats` over already-normalised rows:
one entry per distinct label occurring in the order-corrected rows. -/
def apiPityMap (rows : List PRec) : List (Option String × Nat) :=
  (labelsSorted (rowsSorted rows)).map
    (fun l => (l, apiPityCount l (rowsSorted rows)))

/-- The pity dictionary `GET /api/stats` serves for a raw stored history:
normalise rarities in place, then apply the order heuristic and the
per-label scan. -/
def apiStatsPity (rows : List PRec) : List (Option String × Nat) :=
  apiPityMap (rows.map normRow)

/-! ### The HTTP endpoints of app.py -/

/-- The state of the persisted JSON store as `load_history` (app.py:17-24)
distinguishes it: no file, an unreadable/corrupt file, or a parsed list. -/
inductive FileState where
  | missing : FileState
  | corrupt : FileState
  | present : List PRec → FileState

/-- `load_history`: `[]` when the file is missing or unreadable, else the
parsed rows. -/
def load_history : FileState → List PRec
  | .missing => []
  | .corrupt => []
  | .present rows => rows

/-- The response of `GET /api/stats`: the 404 "no data" error payload, or
the summary (total pulls, 5★ count, 4★ count, pity map; the float rate
fields are omitted from the model). -/
inductive StatsResp where
  | notFound : StatsResp
  | ok : Nat → Nat → Nat → List (Option String × Nat) → StatsResp
  deriving DecidableEq, Repr

/-- `api_stats` (app.py:98-151): 404 when the loaded list is empty
(`if not rows`), else the computed summary. -/
def api_stats (fs : FileState) : StatsResp :=
  let rows := load_history fs
  if rows = [] then .notFound
  else
    let rows1 := rows.map normRow
    .ok rows1.length
      (List.countP (fun r => r.rarity.getD 0 == 5) rows1)
      (List.countP (fun r => r.rarity.getD 0 == 4) rows1)
      (apiStatsPity rows)

/-- Python truthiness of an optional string parameter. -/
def strTruthy : Option String → Bool
  | some s => s ≠ ""
  | none => false

/-- Python truthiness of an optional integer parameter. -/
def intTruthy : Option Int → Bool
  | some v => v ≠ 0
  | none => false

/-- Python `a or b` on two possibly-absent integers (0 is falsy). -/
def pyOrI : Option Int → Option Int → Option Int
  | some v, b => if v = 0 then b else some v
  | none, b => b

/-- app.py:90: `int(r.get("rarity") or r.get("rank_type") or 0)`. -/
def histRarity (r : PRec) : Int := (pyOrI r.rarity (pyOrI r.rank_type (some 0))).getD 0

/-- `GET /api/history` (app.py:79-93): the loaded rows with the three
optional filters, each applied only when its parameter is truthy. -/
def api_history (rows : List PRec) (banner : Option String)
    (rarity limit : Option Int) : List PRec :=
  let rows1 :=
    if strTruthy banner then
      rows.filter (fun r => r.banner == banner || r.banner_label == banner)
    else rows
  let rows2 :=
    if intTruthy rarity then rows1.filter (fun r => histRarity r == rarity.getD 0)
    else rows1
  if intTruthy limit then rows2.take (max 0 (limit.getD 0)).toNat else rows2

/-! ### URL Normalizer (`normalize_url`, gacha_fetcher.py:27-39)

`normalize_url` is built from `urllib.parse` primitives (`urlparse`,
`parse_qs`, `urlencode`, `urlunparse`), which are modelled here at the
byte level: a Python `str` is represented by the list of its UTF-8 bytes
(`PyStr`).  Working on bytes makes `quote`/`unquote` exact inverses
without modelling CPython's UTF-8 decode-with-replacement step, which is
the identity on the valid UTF-8 byte strings the byte view represents.
Literal parameters of the source are ASCII, written with `bs`. -/

/-- A Python string as its list of bytes. -/
abbrev PyStr := List Nat

/-- Bytes of an ASCII string literal. -/
def bs (s : String) : PyStr := s.data.map Char.toNat

def isDigitB (b : Nat) : Bool := decide (48 ≤ b ∧ b ≤ 57)

def isAlphaB (b : Nat) : Bool := decide ((65 ≤ b ∧ b ≤ 90) ∨ (97 ≤ b ∧ b ≤ 122))

/-- The bytes `urllib.parse.quote` never escapes: ASCII alphanumerics and
`_.-~`. -/
def isSafeB (b : Nat) : Bool :=
  isDigitB b || isAlphaB b || decide (b = 95) || decide (b = 46) ||
    decide (b = 45) || decide (b = 126)

/-- Upper-case hex digit of a nibble, as `quote` emits it. -/
def hexDigitU (n : Nat) : Nat := if n < 10 then 48 + n else 55 + n

/-- Value of a hex-digit byte (`unquote` accepts both cases). -/
def hexVal (b : Nat) : Option Nat :=
  if 48 ≤ b ∧ b ≤ 57 then some (b - 48)
  else if 65 ≤ b ∧ b ≤ 70 then some (b - 55)
  else if 97 ≤ b ∧ b ≤ 102 then some (b - 87)
  else none

/-- `quote_plus` on one byte: safe bytes verbatim, space as `+`, the rest
percent-encoded with upper-case hex. -/
def quoteByte (b : Nat) : PyStr :=
  if isSafeB b then [b]
  else if b = 32 then [43]
  else [37, hexDigitU (b / 16 % 16), hexDigitU (b % 16)]

/-- `urllib.parse.quote_plus` with the default empty safe set. -/
def quote_plus (s : PyStr) : PyStr := (s.map quoteByte).flatten

/-- The `.replace('+', ' ')` step of `parse_qsl`. -/
def plusToSpace (s : PyStr) : PyStr := s.map (fun b => if b = 43 then 32 else b)

/-- `str.split(sep)` helper: current segment and finished segments. -/
def splitOnByteAux (sep : Nat) : PyStr → PyStr × List PyStr
  | [] => ([], [])
  | b :: rest =>
    let r := splitOnByteAux sep rest
    if b = sep then ([], r.1 :: r.2) else (b :: r.1, r.2)

/-- `str.split(sep)`: always at least one (possibly empty) segment. -/
def splitOnByte (sep : Nat) (s : PyStr) : List PyStr :=
  (splitOnByteAux sep s).1 :: (splitOnByteAux sep s).2

/-- One chunk following a `%` in `unquote_to_bytes`: decode the first two
bytes as hex if possible and keep the remainder verbatim, else restore
the `%` verbatim. -/
def decodeItem (item : PyStr) : PyStr :=
  match item with
  | h1 :: h2 :: rest =>
    match hexVal h1, hexVal h2 with
    | some x, some y => (16 * x + y) :: rest
    | _, _ => 37 :: item
  | _ => 37 :: item

/-- `urllib.parse.unquote` at the byte level, as CPython's
`unquote_to_bytes` computes it: split on `%`, keep the first chunk
verbatim, decode each later chunk.  (The subsequent UTF-8
decode-with-replacement of CPython is the identity in the byte view.) -/
def unquote (s : PyStr) : PyStr :=
  match splitOnByte 37 s with
  | [] => []
  | first :: items => first ++ (items.map decodeItem).flatten

/-- `unquote_plus`: `+` to space, then percent-decode. -/
def unquote_plus (s : PyStr) : PyStr := unquote (plusToSpace s)

/-- `str.split(sep, 1)`: the parts before and after the first occurrence
of `sep`, or `none` when `sep` does not occur. -/
def splitFirstByte (sep : Nat) : PyStr → Option (PyStr × PyStr)
  | [] => none
  | b :: rest =>
    if b = sep then some ([], rest)
    else (splitFirstByte sep rest).map (fun kv => (b :: kv.1, kv.2))

/-- One `name=value` chunk of `parse_qsl`: skip an empty chunk, skip a
chunk without `=`, skip an empty value (`keep_blank_values=False`),
`unquote_plus` the name and the value. -/
def parseChunk (nv : PyStr) : Option (PyStr × PyStr) :=
  if nv = [] then none
  else
    match splitFirstByte 61 nv with
    | none => none
    | some kv =>
      if kv.2 = [] then none
      else some (unquote_plus kv.1, unquote_plus kv.2)

/-- `urllib.parse.parse_qsl` with default arguments: split on `&`, parse
each chunk. -/
def parse_qsl (qs : PyStr) : List (PyStr × PyStr) :=
  (splitOnByte 38 qs).filterMap parseChunk

/-- Insert one parsed pair into the grouped dictionary, preserving
first-seen key order and appending to an existing key's value list. -/
def addPair (d : List (PyStr × List PyStr)) (k : PyStr) (v : PyStr) :
    List (PyStr × List PyStr) :=
  match d with
  | [] => [(k, [v])]
  | kv :: rest => if kv.1 = k then (kv.1, kv.2 ++ [v]) :: rest else kv :: addPair rest k v

/-- `urllib.parse.parse_qs`: group the pairs of `parse_qsl` by key. -/
def parse_qs (qs : PyStr) : List (PyStr × List PyStr) :=
  (parse_qsl qs).foldl (fun d kv => addPair d kv.1 kv.2) []

/-- `urlencode(q, doseq=True)` applied to one dictionary entry: one
`key=value` chunk per value. -/
def encPair (kv : PyStr × List PyStr) : List PyStr :=
  kv.2.map (fun v => quote_plus kv.1 ++ 61 :: quote_plus v)

/-- `sep.join(segs)` for a one-byte separator. -/
def joinSep (sep : Nat) : List PyStr → PyStr
  | [] => []
  | [seg] => seg
  | seg :: rest => seg ++ sep :: joinSep sep rest

/-- `urllib.parse.urlencode(q, doseq=True)`: the `k=v` chunks joined
with `&`. -/
def urlencode (q : List (PyStr × List PyStr)) : PyStr :=
  joinSep 38 (q.map encPair).flatten

/-- The leading-C0-control-and-space strip of `urlsplit`. -/
def lstripC0 (s : PyStr) : PyStr := s.dropWhile (fun b => decide (b ≤ 32))

/-- `urlsplit` removes tab, CR and LF everywhere. -/
def removeUnsafe (s : PyStr) : PyStr :=
  s.filter (fun b => decide (¬(b = 9 ∨ b = 10 ∨ b = 13)))

/-- `urllib.parse.scheme_chars`. -/
def schemeCharB (b : Nat) : Bool :=
  isAlphaB b || isDigitB b || decide (b = 43) || decide (b = 45) || decide (b = 46)

/-- ASCII lower-casing of one byte, as `str.lower` acts on a scheme. -/
def lowerB (b : Nat) : Nat := if 65 ≤ b ∧ b ≤ 90 then b + 32 else b

/-- The scheme-splitting step of `urlsplit`: a scheme is recognised when a
`:` occurs, the part before it is non-empty, starts with an ASCII letter
and consists of scheme characters; it is returned lower-cased together
with the remainder. -/
def schemeSplit (url : PyStr) : PyStr × PyStr :=
  match splitFirstByte 58 url with
  | none => ([], url)
  | some kv =>
    if kv.1 ≠ [] ∧ (match kv.1.head? with | some b => isAlphaB b | none => false) = true ∧
        kv.1.all schemeCharB
    then (kv.1.map lowerB, kv.2)
    else ([], url)

/-- `urlparse(u).query` on the inputs where `urlsplit` returns: after
the strip/removal and the scheme split, drop the fragment (everything
from the first `#`), then take everything after the first `?`.  The
netloc/path/params decomposition of `urlsplit` cannot affect the query —
a netloc never contains `#` or `?` (it ends at the first of `/?#`) — but
it is where `urlsplit` can raise `ValueError`; that raising condition is
modelled separately (`pyNetloc`, `urlsplitRaises`, `netlocSafe` below),
and theorems about the parse are scoped to non-raising inputs. -/
def pyQuery (raw : PyStr) : PyStr :=
  let url := removeUnsafe (lstripC0 raw)
  let rest := (schemeSplit url).2
  let beforeFrag := match splitFirstByte 35 rest with | some kv => kv.1 | none => rest
  match splitFirstByte 63 beforeFrag with | some kv => kv.2 | none => []

/-- `urlparse(u).scheme`. -/
def pySchemeOf (raw : PyStr) : PyStr := (schemeSplit (removeUnsafe (lstripC0 raw))).1

/-- The condition under which `urlsplit` recognises a scheme. -/
def schemeCond (s : PyStr) : Prop :=
  s ≠ [] ∧ (match s.head? with | some b => isAlphaB b | none => false) = true ∧
    s.all schemeCharB

/-- The URL after the strip/removal and the scheme split. -/
def pyAfterScheme (raw : PyStr) : PyStr := (schemeSplit (removeUnsafe (lstripC0 raw))).2

/-- Drop the fragment: everything from the first `#` on. -/
def pyBeforeFrag (s : PyStr) : PyStr :=
  match splitFirstByte 35 s with | some kv => kv.1 | none => s

/-- The query: everything after the first `?`, if any. -/
def pyQueryPart (s : PyStr) : PyStr :=
  match splitFirstByte 63 s with | some kv => kv.2 | none => []

/-- `urlsplit`'s authority (netloc): present only after a leading `//`
in the post-scheme URL, delimited by the first of `/`, `?`, `#`
(urllib.parse._splitnetloc). -/
def pyNetloc (raw : PyStr) : PyStr :=
  match pyAfterScheme raw with
  | 47 :: 47 :: t => t.takeWhile (fun b => decide (¬(b = 47 ∨ b = 63 ∨ b = 35)))
  | _ => []

/-- The unconditional `ValueError` of `urlsplit` ("Invalid IPv6 URL"):
an authority containing `[` but not `]`, or `]` but not `[`.  On such
inputs `urlparse` raises in every CPython 3 version and `normalize_url`
propagates the exception. -/
def urlsplitRaises (u : PyStr) : Bool :=
  (decide (91 ∈ pyNetloc u) && !decide (93 ∈ pyNetloc u)) ||
  (decide (93 ∈ pyNetloc u) && !decide (91 ∈ pyNetloc u))

/-- A bracket-free ASCII authority: a sufficient condition for `urlsplit`
not to raise in any CPython 3 version (the unbalanced- and
bracketed-host checks need a `[` or `]` in the netloc, and
`_checknetloc` returns immediately on an ASCII netloc), so on these
inputs `normalize_url` returns and the total embedding below is its
value. -/
def netlocSafe (u : PyStr) : Bool :=
  (pyNetloc u).all (fun b => decide (b < 128 ∧ b ≠ 91 ∧ b ≠ 93))

/-- Host selection of gacha_fetcher.py:30. -/
def hostFor (region : PyStr) : PyStr :=
  if region = bs "global" then bs "public-operation-hk4e-sg.hoyoverse.com"
  else bs "public-operation-hk4e.mihoyo.com"

/-- `game_biz` default of gacha_fetcher.py:38. -/
def gamebizFor (region : PyStr) : PyStr :=
  if region = bs "global" then bs "hk4e_global" else bs "hk4e_cn"

/-- The fixed endpoint path of gacha_fetcher.py:31. -/
def endpointPath : PyStr := bs "/gacha_info/api/getGachaLog"

/-- First-match lookup in the ordered query dictionary. -/
def assocLookup (q : List (PyStr × List PyStr)) (k : PyStr) : Option (List PyStr) :=
  match q with
  | [] => none
  | kv :: rest => if kv.1 = k then some kv.2 else assocLookup rest k

/-- The `q.pop(k, None)` loop of gacha_fetcher.py:33-34: remove the
paging keys, keeping everything else in order. -/
def popPaging (q : List (PyStr × List PyStr)) : List (PyStr × List PyStr) :=
  q.filter (fun kv =>
    decide (kv.1 ≠ bs "page" ∧ kv.1 ≠ bs "size" ∧ kv.1 ≠ bs "end_id"))

/-- `q.setdefault("lang", ["en"])`: append at the end when absent. -/
def setdefaultLang (q : List (PyStr × List PyStr)) : List (PyStr × List PyStr) :=
  if (assocLookup q (bs "lang")).isSome then q else q ++ [(bs "lang", [bs "en"])]

/-- `q[k] = v`: replace in place when the key exists, else append. -/
def setKey (q : List (PyStr × List PyStr)) (k : PyStr) (v : List PyStr) :
    List (PyStr × List PyStr) :=
  if (assocLookup q k).isSome then q.map (fun kv => if kv.1 = k then (kv.1, v) else kv)
  else q ++ [(k, v)]

/-- The condition of gacha_fetcher.py:37:
`not q.get("game_biz") or not q["game_biz"][0]`. -/
def gamebizBad (q : List (PyStr × List PyStr)) : Bool :=
  match assocLookup q (bs "game_biz") with
  | none => true
  | some [] => true
  | some (v :: _) => decide (v = [])

/-- gacha_fetcher.py:37-38: default `game_biz` by region when missing or
empty. -/
def fixGamebiz (q : List (PyStr × List PyStr)) (region : PyStr) :
    List (PyStr × List PyStr) :=
  if gamebizBad q then setKey q (bs "game_biz") [gamebizFor region] else q

/-- The full query rewrite of `normalize_url`. -/
def normQuery (u region : PyStr) : List (PyStr × List PyStr) :=
  fixGamebiz (setdefaultLang (popPaging (parse_qs (pyQuery u)))) region

/-- `p.scheme or "https"`. -/
def schemeOrHttps (u : PyStr) : PyStr :=
  let s := pySchemeOf u
  if s = [] then bs "https" else s

/-- `normalize_url` (gacha_fetcher.py:27-39), on the inputs where its
`urlparse` call returns (see `netlocSafe`; on an input with an
unbalanced-bracket authority the Python function instead propagates
`urlparse`'s `ValueError`, so this total function is its value only on
the non-raising domain).  The final `urlunparse` call always receives a
non-empty netloc, an absolute path and empty params/fragment, for which
it produces
`scheme ++ "://" ++ netloc ++ path (++ "?" ++ query when non-empty)`. -/
def normalize_url (u region : PyStr) : PyStr :=
  let e := urlencode (normQuery u region)
  schemeOrHttps u ++ bs "://" ++ hostFor region ++ endpointPath ++
    (if e = [] then [] else 63 :: e)

/-- The bytes that can occur in `quote_plus` output. -/
def QOut (c : Nat) : Prop :=
  (48 ≤ c ∧ c ≤ 57) ∨ (65 ≤ c ∧ c ≤ 90) ∨ (97 ≤ c ∧ c ≤ 122) ∨
    c = 95 ∨ c = 46 ∨ c = 45 ∨ c = 126 ∨ c = 43 ∨ c = 37

/-- The flat pair list a dictionary encodes to. -/
def flatPairs (q : List (PyStr × List PyStr)) : List (PyStr × PyStr) :=
  (q.map (fun kv => kv.2.map (fun v => (kv.1, v)))).flatten

/-- The dictionaries the round trip preserves: pairwise-distinct keys,
non-empty value lists, non-empty values, all bytes below 256. -/
def GoodDict (q : List (PyStr × List PyStr)) : Prop :=
  List.Pairwise (fun a b => a.1 ≠ b.1) q ∧
  ∀ kv ∈ q, (∀ b ∈ kv.1, b < 256) ∧ kv.2 ≠ [] ∧ ∀ v ∈ kv.2, v ≠ [] ∧ ∀ b ∈ v, b < 256

/-! ### Order and sorting lemmas -/

theorem strLtChars_trichotomy :
    ∀ s t : List Char, strLtChars s t = true ∨ strLtChars t s = true ∨ s = t
  | [], [] => Or.inr (Or.inr rfl)
  | [], _ :: _ => Or.inl rfl
  | _ :: _, [] => Or.inr (Or.inl rfl)
  | a :: s, b :: t => by
    by_cases hab : a = b
    · subst hab
      rcases strLtChars_trichotomy s t with h | h | h <;>
        simp [strLtChars, h]
    · have hn : a.toNat ≠ b.toNat := fun h => hab (by
        have := congrArg Char.ofNat h
        rwa [Char.ofNat_toNat, Char.ofNat_toNat] at this)
      rcases Nat.lt_trichotomy a.toNat b.toNat with h | h | h
      · exact Or.inl (by simp [strLtChars, hab, h])
      · exact absurd h hn
      · refine Or.inr (Or.inl ?_)
        have hba : b ≠ a := fun hh => hab hh.symm
        simp [strLtChars, hba, h]

theorem pyStrLe_total (s t : String) : pyStrLeB s t = true ∨ pyStrLeB t s = true := by
  rcases strLtChars_trichotomy s.data t.data with h | h | h
  · exact Or.inl (by simp [pyStrLeB, pyStrLtB, h])
  · exact Or.inr (by simp [pyStrLeB, pyStrLtB, h])
  · have hst : s = t := by
      cases s; cases t
      exact congrArg String.mk (by simpa using h)
    subst hst
    exact Or.inl (by simp [pyStrLeB])

theorem tupLe_total (x y : Int × String) : tupLeB x y = true ∨ tupLeB y x = true := by
  rcases lt_trichotomy x.1 y.1 with h | h | h
  · exact Or.inl (by simp [tupLeB, h])
  · rcases pyStrLe_total x.2 y.2 with hs | hs
    · exact Or.inl (by simp [tupLeB, h, hs])
    · exact Or.inr (by simp [tupLeB, h.symm, hs])
  · exact Or.inr (by simp [tupLeB, h])

theorem rowGe_total (a b : PRec) : rowGeB a b = true ∨ rowGeB b a = true :=
  (tupLe_total (keyOf b) (keyOf a)).imp id id

theorem insertLe_perm {α : Type} (le : α → α → Bool) (a : α) :
    ∀ l : List α, List.Perm (insertLe le a l) (a :: l)
  | [] => List.Perm.refl _
  | b :: l => by
    by_cases h : le a b = true
    · simp [insertLe, h]
    · simp only [insertLe, h, if_false]
      exact List.Perm.trans ((insertLe_perm le a l).cons b) (List.Perm.swap a b l)

theorem sortLe_perm {α : Type} (le : α → α → Bool) :
    ∀ l : List α, List.Perm (sortLe le l) l
  | [] => List.Perm.refl _
  | a :: l =>
    List.Perm.trans (insertLe_perm le a (sortLe le l)) ((sortLe_perm le l).cons a)

theorem chain'_insertLe {α : Type} (le : α → α → Bool)
    (htot : ∀ a b, le a b = true ∨ le b a = true) (a : α) :
    ∀ l : List α, List.Chain' (fun x y => le x y = true) l →
      List.Chain' (fun x y => le x y = true) (insertLe le a l)
  | [], _ => by simp [insertLe]
  | b :: l, h => by
    by_cases hab : le a b = true
    · simp only [insertLe, hab, if_true]
      exact List.chain'_cons'.mpr ⟨fun y hy => by simp at hy; subst hy; exact hab, h⟩
    · simp only [insertLe, hab, if_false]
      have hba : le b a = true := (htot a b).resolve_left hab
      refine List.chain'_cons'.mpr ⟨?_, chain'_insertLe le htot a l h.tail⟩
      intro y hy
      cases l with
      | nil => simp [insertLe] at hy; subst hy; exact hba
      | cons c l' =>
        by_cases hac : le a c = true
        · simp [insertLe, hac] at hy; subst hy; exact hba
        · simp [insertLe, hac] at hy
          subst hy
          exact (List.chain'_cons.mp h).1

theorem chain'_sortLe {α : Type} (le : α → α → Bool)
    (htot : ∀ a b, le a b = true ∨ le b a = true) :
    ∀ l : List α, List.Chain' (fun x y => le x y = true) (sortLe le l)
  | [] => List.chain'_nil
  | a :: l => chain'_insertLe le htot a (sortLe le l) (chain'_sortLe le htot l)

/-! ### Dedup lemmas -/

theorem dedupeAux_nil (seen : List String) : dedupeAux [] seen = [] := rfl

theorem dedupeAux_cons_none (x : PRec) (rest : List PRec) (seen : List String)
    (h : x.id = none) : dedupeAux (x :: rest) seen = dedupeAux rest seen := by
  conv_lhs => unfold dedupeAux
  rw [h]

theorem dedupeAux_cons_pos (x : PRec) (rest : List PRec) (seen : List String)
    (rid : String) (h : x.id = some rid) (hk : rid ≠ "" ∧ rid ∉ seen) :
    dedupeAux (x :: rest) seen = x :: dedupeAux rest (rid :: seen) := by
  conv_lhs => unfold dedupeAux
  rw [h]
  show (if rid ≠ "" ∧ rid ∉ seen then x :: dedupeAux rest (rid :: seen)
    else dedupeAux rest seen) = x :: dedupeAux rest (rid :: seen)
  exact if_pos hk

theorem dedupeAux_cons_neg (x : PRec) (rest : List PRec) (seen : List String)
    (rid : String) (h : x.id = some rid) (hk : ¬(rid ≠ "" ∧ rid ∉ seen)) :
    dedupeAux (x :: rest) seen = dedupeAux rest seen := by
  conv_lhs => unfold dedupeAux
  rw [h]
  show (if rid ≠ "" ∧ rid ∉ seen then x :: dedupeAux rest (rid :: seen)
    else dedupeAux rest seen) = dedupeAux rest seen
  exact if_neg hk

theorem mem_dedupeAux :
    ∀ (l : List PRec) (seen : List String) (r : PRec), r ∈ dedupeAux l seen →
      ∃ s, r.id = some s ∧ s ≠ "" ∧ s ∉ seen := by
  intro l
  induction l with
  | nil => intro seen r h; simp [dedupeAux] at h
  | cons x rest ih =>
    intro seen r h
    cases hid : x.id with
    | none => rw [dedupeAux_cons_none x rest seen hid] at h; exact ih seen r h
    | some rid =>
      by_cases hk : rid ≠ "" ∧ rid ∉ seen
      · rw [dedupeAux_cons_pos x rest seen rid hid hk] at h
        rcases List.mem_cons.mp h with hrx | hmem
        · subst hrx; exact ⟨rid, hid, hk.1, hk.2⟩
        · rcases ih _ r hmem with ⟨s, hs, hne, hnotin⟩
          exact ⟨s, hs, hne, fun hmem2 => hnotin (List.mem_cons_of_mem _ hmem2)⟩
      · rw [dedupeAux_cons_neg x rest seen rid hid hk] at h
        exact ih seen r h

theorem countP_dedupeAux (s : String) (hs : s ≠ "") :
    ∀ (l : List PRec) (seen : List String),
      List.countP (fun r => r.id == some s) (dedupeAux l seen) =
        if s ∉ seen ∧ some s ∈ l.map PRec.id then 1 else 0 := by
  intro l
  induction l with
  | nil => intro seen; simp [dedupeAux]
  | cons x rest ih =>
    intro seen
    cases hid : x.id with
    | none =>
      rw [dedupeAux_cons_none x rest seen hid, ih seen]
      simp [hid]
    | some rid =>
      by_cases hk : rid ≠ "" ∧ rid ∉ seen
      · rw [dedupeAux_cons_pos x rest seen rid hid hk]
        by_cases hrs : rid = s
        · subst hrs
          rw [List.countP_cons, ih (rid :: seen)]
          simp [hid, hk.2]
        · have hss : some s ≠ some rid := fun hh => hrs (Option.some.inj hh).symm
          rw [List.countP_cons, ih (rid :: seen)]
          have hne : (x.id == some s) = false := by
            rw [hid]
            exact beq_eq_false_iff_ne.mpr (Ne.symm hss)
          have hsm : s ∉ rid :: seen ↔ s ∉ seen := by
            constructor
            · exact fun hh hmem => hh (List.mem_cons_of_mem _ hmem)
            · intro hh hmem
              rcases List.mem_cons.mp hmem with he | hm
              · exact hrs he.symm
              · exact hh hm
          have hmapm : some s ∈ (x :: rest).map PRec.id ↔ some s ∈ rest.map PRec.id := by
            rw [List.map_cons, List.mem_cons, hid]
            exact or_iff_right hss
          rw [hne]
          simp only [Bool.false_eq_true, if_false, Nat.add_zero]
          exact if_congr (and_congr hsm hmapm.symm) rfl rfl
      · rw [dedupeAux_cons_neg x rest seen rid hid hk, ih seen]
        rcases not_and_or.mp hk with hemp | hin
        · push_neg at hemp
          have hne : rid ≠ s := fun h => hs (h ▸ hemp)
          have hss : some s ≠ some rid := fun hh => hne (Option.some.inj hh).symm
          have hmapm : some s ∈ (x :: rest).map PRec.id ↔ some s ∈ rest.map PRec.id := by
            rw [List.map_cons, List.mem_cons, hid]
            exact or_iff_right hss
          exact (if_congr (and_congr Iff.rfl hmapm.symm) rfl rfl)
        · push_neg at hin
          by_cases hrs : rid = s
          · subst hrs
            simp [hid, hin]
          · have hss : some s ≠ some rid := fun hh => hrs (Option.some.inj hh).symm
            have hmapm : some s ∈ (x :: rest).map PRec.id ↔ some s ∈ rest.map PRec.id := by
              rw [List.map_cons, List.mem_cons, hid]
              exact or_iff_right hss
            exact (if_congr (and_congr Iff.rfl hmapm.symm) rfl rfl)

theorem find?_dedupeAux :
    ∀ (l : List PRec) (seen : List String) (r : PRec), r ∈ dedupeAux l seen →
      List.find? (fun x => x.id == r.id) l = some r := by
  intro l
  induction l with
  | nil => intro seen r h; simp [dedupeAux] at h
  | cons x rest ih =>
    intro seen r h
    cases hid : x.id with
    | none =>
      rw [dedupeAux_cons_none x rest seen hid] at h
      rcases mem_dedupeAux _ _ _ h with ⟨s, hrid, _, _⟩
      rw [List.find?_cons_of_neg, ih seen r h]
      simp [hid, hrid]
    | some rid =>
      by_cases hk : rid ≠ "" ∧ rid ∉ seen
      · rw [dedupeAux_cons_pos x rest seen rid hid hk] at h
        rcases List.mem_cons.mp h with hrx | hmem
        · subst hrx
          rw [List.find?_cons_of_pos]
          simp
        · rcases mem_dedupeAux _ _ _ hmem with ⟨s, hrid, _, hnotin⟩
          have hsne : s ≠ rid := fun hh => hnotin (hh ▸ List.mem_cons_self _ _)
          rw [List.find?_cons_of_neg, ih _ r hmem]
          simp only [hid, hrid, beq_iff_eq]
          exact fun hh => hsne (Option.some.inj hh).symm
      · rw [dedupeAux_cons_neg x rest seen rid hid hk] at h
        rcases mem_dedupeAux _ _ _ h with ⟨s, hrid, hne, hnotin⟩
        have hrs : rid ≠ s := by
          rcases not_and_or.mp hk with hemp | hin
          · push_neg at hemp
            exact fun hh => hne (by rw [← hh, hemp])
          · push_neg at hin
            exact fun hh => hnotin (hh ▸ hin)
        rw [List.find?_cons_of_neg, ih seen r h]
        simp only [hid, hrid, beq_iff_eq]
        exact fun hh => hrs (Option.some.inj hh)

theorem dedupeAux_ids :
    ∀ (l : List PRec) (seen : List String),
      (dedupeAux l seen).map (fun r => (truthyId r).getD "") =
        firstDedup seen (l.filterMap truthyId) ∧
      (dedupeAux l seen).length = (firstDedup seen (l.filterMap truthyId)).length := by
  intro l
  induction l with
  | nil => intro seen; simp [dedupeAux, firstDedup]
  | cons x rest ih =>
    intro seen
    cases hid : x.id with
    | none =>
      have ht : truthyId x = none := by simp [truthyId, hid]
      rw [dedupeAux_cons_none x rest seen hid]
      simpa [ht] using ih seen
    | some rid =>
      by_cases hemp : rid = ""
      · subst hemp
        have ht : truthyId x = none := by simp [truthyId, hid]
        have hk : ¬(("" : String) ≠ "" ∧ "" ∉ seen) := by simp
        rw [dedupeAux_cons_neg x rest seen "" hid hk]
        simpa [ht] using ih seen
      · have ht : truthyId x = some rid := by simp [truthyId, hid, hemp]
        by_cases hin : rid ∈ seen
        · have hk : ¬(rid ≠ "" ∧ rid ∉ seen) := by simp [hin]
          rw [dedupeAux_cons_neg x rest seen rid hid hk]
          simpa [ht, firstDedup, hin] using ih seen
        · have hk : rid ≠ "" ∧ rid ∉ seen := ⟨hemp, hin⟩
          rw [dedupeAux_cons_pos x rest seen rid hid hk]
          have hrec := ih (rid :: seen)
          constructor
          · simp only [List.map_cons, ht, List.filterMap_cons, firstDedup, hin,
              if_false, Option.getD_some]
            rw [hrec.1]
          · simp only [List.length_cons, ht, List.filterMap_cons, firstDedup, hin,
              if_false]
            rw [hrec.2]

theorem mem_firstDedup :
    ∀ (ids : List String) (seen : List String) (x : String),
      x ∈ firstDedup seen ids → x ∈ ids ∧ x ∉ seen := by
  intro ids
  induction ids with
  | nil => intro seen x h; simp [firstDedup] at h
  | cons s rest ih =>
    intro seen x h
    unfold firstDedup at h
    by_cases hin : s ∈ seen
    · rw [if_pos hin] at h
      rcases ih seen x h with ⟨h1, h2⟩
      exact ⟨List.mem_cons_of_mem _ h1, h2⟩
    · rw [if_neg hin] at h
      rcases List.mem_cons.mp h with hx | hx
      · subst hx; exact ⟨List.mem_cons_self _ _, hin⟩
      · rcases ih _ x hx with ⟨h1, h2⟩
        refine ⟨List.mem_cons_of_mem _ h1, fun hmem => h2 (List.mem_cons_of_mem _ hmem)⟩

theorem mem_firstDedup_of_mem :
    ∀ (ids : List String) (seen : List String) (x : String),
      x ∈ ids → x ∉ seen → x ∈ firstDedup seen ids := by
  intro ids
  induction ids with
  | nil => intro seen x h; simp at h
  | cons s rest ih =>
    intro seen x h hns
    unfold firstDedup
    by_cases hin : s ∈ seen
    · rw [if_pos hin]
      rcases List.mem_cons.mp h with hx | hx
      · exact absurd (hx ▸ hin) hns
      · exact ih seen x hx hns
    · rw [if_neg hin]
      rcases List.mem_cons.mp h with hx | hx
      · subst hx; exact List.mem_cons_self _ _
      · by_cases hxs : x = s
        · subst hxs; exact List.mem_cons_self _ _
        · refine List.mem_cons_of_mem _ (ih _ x hx ?_)
          simp [hxs, hns]

theorem nodup_firstDedup :
    ∀ (ids : List String) (seen : List String), (firstDedup seen ids).Nodup := by
  intro ids
  induction ids with
  | nil => intro seen; simp [firstDedup]
  | cons s rest ih =>
    intro seen
    unfold firstDedup
    by_cases hin : s ∈ seen
    · rw [if_pos hin]; exact ih seen
    · rw [if_neg hin]
      refine List.nodup_cons.mpr ⟨?_, ih (s :: seen)⟩
      intro hmem
      exact (mem_firstDedup _ _ _ hmem).2 (List.mem_cons_self _ _)

theorem firstDedup_length (ids : List String) :
    (firstDedup [] ids).length = ids.dedup.length := by
  have hperm : List.Perm (firstDedup [] ids) ids.dedup := by
    refine (List.perm_ext_iff_of_nodup (nodup_firstDedup ids []) (List.nodup_dedup ids)).mpr ?_
    intro a
    rw [List.mem_dedup]
    constructor
    · exact fun h => (mem_firstDedup _ _ _ h).1
    · exact fun h => mem_firstDedup_of_mem _ _ _ h (by simp)
  exact hperm.length_eq

/-! ### Claims about the Deduplicator/Sorter -/

/-- C5 [confirmed]: every pair of adjacent records `(a, b)` in the output of
`dedupe_and_sort` satisfies `(a.derivedTimestamp, a.id) >= (b.derivedTimestamp, b.id)`
under lexicographic tuple comparison, with ids compared as Python strings:
the history is sorted descending by `(_ts, id)`, newest first. -/
theorem dedupe_and_sort_sorted_desc (l : List PRec) :
    List.Chain' (fun a b => tupLe (keyOf b) (keyOf a)) (dedupe_and_sort l) := by
  have h := chain'_sortLe rowGeB rowGe_total (dedupeAux l [])
  exact h

/-- C4 [counterexample]: on an input whose single record carries the empty-string
id, the output of `dedupe_and_sort` is empty, so its length differs from the
number of distinct ids occurring in the input (which is one). -/
theorem dedupe_and_sort_len_counterexample :
    (dedupe_and_sort [{ id := some "" }]).length ≠
      (([({ id := some "" } : PRec)].map PRec.id).dedup).length := by
  decide

/-- C4 [amended]: for every input list, the output of `dedupe_and_sort` has
exactly one record per distinct *truthy* (present and non-empty) id — the first
occurrence in input order wins — and the output length equals the number of
distinct truthy ids of the input; records whose id is missing, `None` or `""`
are dropped. -/
theorem dedupe_and_sort_unique_ids (l : List PRec) :
    ((dedupe_and_sort l).length = ((l.filterMap truthyId).dedup).length) ∧
    (∀ s : String, s ≠ "" →
      List.countP (fun r => r.id == some s) (dedupe_and_sort l) =
        if some s ∈ l.map PRec.id then 1 else 0) ∧
    (∀ r ∈ dedupe_and_sort l, List.find? (fun x => x.id == r.id) l = some r) := by
  have hperm : List.Perm (dedupe_and_sort l) (dedupeAux l []) :=
    sortLe_perm rowGeB (dedupeAux l [])
  refine ⟨?_, ?_, ?_⟩
  · rw [hperm.length_eq, (dedupeAux_ids l []).2, firstDedup_length]
  · intro s hs
    rw [hperm.countP_eq]
    rw [countP_dedupeAux s hs l []]
    simp
  · intro r hr
    exact find?_dedupeAux l [] r (hperm.mem_iff.mp hr)

/-- Witness for C4's amended theorem at a concrete input. -/
theorem dedupe_and_sort_unique_ids_witness :
    (("3" : String) ≠ "") ∧
    List.countP (fun r => r.id == some "3")
        (dedupe_and_sort [{ id := some "3" }, { id := some "3" }]) =
      if some "3" ∈ [({ id := some "3" } : PRec), { id := some "3" }].map PRec.id
      then 1 else 0 :=
  ⟨by decide,
   (dedupe_and_sort_unique_ids [{ id := some "3" }, { id := some "3" }]).2.1 "3"
     (by decide)⟩

/-- C9 [confirmed]: every record surviving `dedupe_and_sort` has a present,
non-empty id; and on a concrete pair of distinct records with falsy ids the
output is strictly shorter than the input, even though the inputs are
pairwise distinct. -/
theorem dedupe_and_sort_drops_falsy_ids :
    (∀ (l : List PRec) (r : PRec), r ∈ dedupe_and_sort l →
      ∃ s, r.id = some s ∧ s ≠ "") ∧
    ([({ id := none, name := "a" } : PRec), { id := some "", name := "b" }].Nodup ∧
      (dedupe_and_sort [({ id := none, name := "a" } : PRec),
        { id := some "", name := "b" }]).length <
        [({ id := none, name := "a" } : PRec), { id := some "", name := "b" }].length) := by
  constructor
  · intro l r hr
    have hperm : List.Perm (dedupe_and_sort l) (dedupeAux l []) :=
      sortLe_perm rowGeB (dedupeAux l [])
    rcases mem_dedupeAux l [] r (hperm.mem_iff.mp hr) with ⟨s, h1, h2, _⟩
    exact ⟨s, h1, h2⟩
  · constructor
    · decide
    · decide

/-- Witness for C9's theorem at a concrete input. -/
theorem dedupe_and_sort_drops_falsy_ids_witness :
    (({ id := some "7" } : PRec) ∈ dedupe_and_sort [{ id := some "7" }]) ∧
    (∃ s, ({ id := some "7" } : PRec).id = some s ∧ s ≠ "") :=
  ⟨by decide,
   dedupe_and_sort_drops_falsy_ids.1 [{ id := some "7" }] { id := some "7" }
     (by decide)⟩

/-! ### Paginator lemmas -/

theorem fetchLoop_success (gacha_type : String) :
    ∀ (pre : List (Option (List Raw))), (∀ p ∈ pre, ∃ rs, p = some rs ∧ rs ≠ []) →
      ∀ (tail : List (Option (List Raw))) (acc : List PRec) (page : Nat)
        (endId : Option String),
        (tail.head?.getD none = none ∨ tail.head? = some (some [])) →
        fetchLoop gacha_type (pre ++ tail) acc page endId =
          acc ++ ((pre.filterMap id).flatten).map (transformRow gacha_type) := by
  intro pre
  induction pre with
  | nil =>
    intro _ tail acc page endId htail
    rcases htail with h | h
    · cases tail with
      | nil => simp [fetchLoop]
      | cons t ts =>
        simp at h
        subst h
        simp [fetchLoop]
    · cases tail with
      | nil => simp at h
      | cons t ts =>
        simp at h
        subst h
        simp [fetchLoop]
  | cons p pre ih =>
    intro hpre tail acc page endId htail
    rcases hpre p (List.mem_cons_self _ _) with ⟨rs, hp, hne⟩
    subst hp
    have hstep : fetchLoop gacha_type (some rs :: pre ++ tail) acc page endId =
        fetchLoop gacha_type (pre ++ tail)
          (acc ++ rs.map (transformRow gacha_type)) (page + 1)
          (rs.getLast?.map Raw.id) := by
      simp only [fetchLoop, List.cons_append]
      rw [if_neg hne]
      rfl
    rw [List.cons_append] at hstep ⊢
    rw [hstep]
    rw [ih (fun q hq => hpre q (List.mem_cons_of_mem _ hq)) tail _ _ _ htail]
    simp [List.append_assoc]

/-- C6 [confirmed]: `fetch_banner` stops paginating at the first failing
request or at the first page with zero rows.  Whatever the later pages
would have held, the result is exactly the transformed rows of the
earlier successful non-empty pages — partial results are kept and no
exception escapes (a failing request yields a value, never a raised
error, by construction of the loop). -/
theorem fetch_banner_partial_results (gacha_type : String)
    (pre rest : List (Option (List Raw)))
    (hpre : ∀ p ∈ pre, ∃ rs, p = some rs ∧ rs ≠ []) :
    fetch_banner gacha_type (pre ++ none :: rest) =
        ((pre.filterMap id).flatten).map (transformRow gacha_type) ∧
    fetch_banner gacha_type (pre ++ some [] :: rest) =
        ((pre.filterMap id).flatten).map (transformRow gacha_type) := by
  constructor
  · have h := fetchLoop_success gacha_type pre hpre (none :: rest) [] 1 none
      (by simp)
    simpa [fetch_banner] using h
  · have h := fetchLoop_success gacha_type pre hpre (some [] :: rest) [] 1 none
      (by simp)
    simpa [fetch_banner] using h

/-- Witness for C6 at a concrete oracle: one successful page of two rows,
then a failing request, then an unreached page. -/
theorem fetch_banner_partial_results_witness :
    (∀ p ∈ [some [({ id := "1" } : Raw), { id := "2" }]],
      ∃ rs, p = some rs ∧ rs ≠ []) ∧
    (fetch_banner "301" ([some [({ id := "1" } : Raw), { id := "2" }]] ++
        none :: [some [({ id := "3" } : Raw)]]) =
      ((([some [({ id := "1" } : Raw), { id := "2" }]].filterMap id).flatten).map
        (transformRow "301"))) :=
  ⟨by decide,
   (fetch_banner_partial_results "301" [some [({ id := "1" } : Raw), { id := "2" }]]
      [some [({ id := "3" } : Raw)]] (by decide)).1⟩

/-! ### Statistics lemmas -/

theorem takeWhileAll {α : Type} (p : α → Bool) :
    ∀ l : List α, (∀ x ∈ l, p x = true) → l.takeWhile p = l
  | [], _ => rfl
  | a :: l, h => by
    rw [List.takeWhile_cons_of_pos (h a (List.mem_cons_self _ _))]
    rw [takeWhileAll p l (fun x hx => h x (List.mem_cons_of_mem _ hx))]

theorem calcPityCount_charac (label : String) :
    ∀ rows : List PRec,
      calcPityCount label rows =
        ((rows.filter (fun r => r.banner_label == some label)).takeWhile
          (fun r => !(r.rarity == some 5))).length := by
  intro rows
  induction rows with
  | nil => rfl
  | cons r rest ih =>
    by_cases hl : r.banner_label = some label
    · by_cases h5 : r.rarity = some 5
      · simp [calcPityCount, hl, h5]
      · simp [calcPityCount, hl, h5, ih]
    · have hb : (r.banner_label == some label) = false := by
        simp [hl]
      simp [calcPityCount, hl, hb, ih]

theorem calc_stats_pity_lookup (rows : List PRec) (label : String)
    (h : label ∈ staticLabels) :
    List.lookup label (calc_stats_pity rows) = some (calcPityCount label rows) := by
  simp [staticLabels, GACHA_TYPES] at h
  rcases h with rfl | rfl | rfl | rfl | rfl <;> rfl

/-! ### Claims about the Statistics Engine -/

/-- C1 [counterexample]: a non-empty history whose single record carries
the static label "Standard" yields, through the `GET /api/stats` pity
computation, a pity map without the static label "Beginner": the served
pity map does not contain one entry per label of the static table. -/
theorem api_pity_missing_label_counterexample :
    ([({ banner_label := some "Standard", rarity := some 3, id := some "1",
          ts := some 5 } : PRec)] ≠ []) ∧
    "Beginner" ∈ staticLabels ∧
    some "Beginner" ∉
      (apiStatsPity [{ banner_label := some "Standard", rarity := some 3,
                       id := some "1", ts := some 5 }]).map Prod.fst := by
  refine ⟨by decide, by decide, by decide⟩

/-- C1 [amended]: `calc_stats` produces a pity map with exactly one entry
per label of the static table, whose value is the number of records of
that label preceding the label's first 5★ in the given order — equal to
the label's total count when the label has no 5★; the `GET /api/stats`
endpoint, by contrast, keys its pity map by the distinct labels actually
occurring in the (order-corrected) history, so zero-record static labels
are absent from the served map. -/
theorem pity_map_shapes (rows : List PRec) :
    ((calc_stats_pity rows).map Prod.fst = staticLabels) ∧
    (∀ label ∈ staticLabels,
      List.lookup label (calc_stats_pity rows) =
        some (((rows.filter (fun r => r.banner_label == some label)).takeWhile
          (fun r => !(r.rarity == some 5))).length)) ∧
    (∀ label ∈ staticLabels,
      (∀ r ∈ rows, r.banner_label = some label → r.rarity ≠ some 5) →
      List.lookup label (calc_stats_pity rows) =
        some ((rows.filter (fun r => r.banner_label == some label)).length)) ∧
    (∀ l : Option String,
      l ∈ (apiStatsPity rows).map Prod.fst ↔
        l ∈ (rowsSorted (rows.map normRow)).map labelOf) := by
  refine ⟨rfl, ?_, ?_, ?_⟩
  · intro label h
    rw [calc_stats_pity_lookup rows label h, calcPityCount_charac]
  · intro label h hno
    rw [calc_stats_pity_lookup rows label h, calcPityCount_charac]
    have hall : ∀ x ∈ rows.filter (fun r => r.banner_label == some label),
        (!(x.rarity == some 5)) = true := by
      intro x hx
      rcases List.mem_filter.mp hx with ⟨hxr, hxl⟩
      have h5 : x.rarity ≠ some 5 := hno x hxr (beq_iff_eq.mp hxl)
      simp [h5]
    rw [takeWhileAll _ _ hall]
  · intro l
    have h1 : (apiStatsPity rows).map Prod.fst =
        labelsSorted (rowsSorted (rows.map normRow)) := by
      unfold apiStatsPity apiPityMap
      rw [List.map_map]
      have hfi : (Prod.fst ∘ fun l : Option String =>
          (l, apiPityCount l (rowsSorted (rows.map normRow)))) = id := rfl
      rw [hfi, List.map_id]
    rw [h1]
    unfold labelsSorted
    rw [(sortLe_perm optLeB _).mem_iff]
    exact List.mem_dedup

/-- Witness for C1's amended theorem at a concrete input. -/
theorem pity_map_shapes_witness :
    ("Beginner" ∈ staticLabels) ∧
    List.lookup "Beginner"
        (calc_stats_pity [{ banner_label := some "Standard", rarity := some 3 }]) =
      some ((([({ banner_label := some "Standard", rarity := some 3 } : PRec)].filter
        (fun r => r.banner_label == some "Beginner")).takeWhile
          (fun r => !(r.rarity == some 5))).length) :=
  ⟨by decide,
   (pity_map_shapes [{ banner_label := some "Standard", rarity := some 3 }]).2.1
     "Beginner" (by decide)⟩

theorem normRow_ts (r : PRec) : (normRow r).ts = r.ts := by
  unfold normRow
  split <;> rfl

theorem getLast?_map_pr (f : PRec → PRec) (l : List PRec) :
    (l.map f).getLast? = l.getLast?.map f := by
  rw [← List.head?_reverse, ← List.map_reverse, List.head?_map, List.head?_reverse]

theorem rowsSorted_of_distinct_endpoints (m : List PRec) (r0 rn : PRec)
    (h0 : m.head? = some r0) (hn : m.getLast? = some rn)
    (ht0 : tsTruthy r0.ts = true) (htn : tsTruthy rn.ts = true)
    (hne : r0.ts.getD 0 ≠ rn.ts.getD 0) :
    rowsSorted m = rowsSorted m.reverse := by
  have hrevh : m.reverse.head? = some rn := by rw [List.head?_reverse, hn]
  have hrevl : m.reverse.getLast? = some r0 := by rw [List.getLast?_reverse, h0]
  have ho : orderedNewestFirst m = decide (r0.ts.getD 0 ≥ rn.ts.getD 0) := by
    unfold orderedNewestFirst
    rw [h0, hn]
    show (if tsTruthy rn.ts ∧ tsTruthy r0.ts
      then decide (r0.ts.getD 0 ≥ rn.ts.getD 0) else true) = _
    exact if_pos ⟨htn, ht0⟩
  have ho2 : orderedNewestFirst m.reverse = decide (rn.ts.getD 0 ≥ r0.ts.getD 0) := by
    unfold orderedNewestFirst
    rw [hrevh, hrevl]
    show (if tsTruthy r0.ts ∧ tsTruthy rn.ts
      then decide (rn.ts.getD 0 ≥ r0.ts.getD 0) else true) = _
    exact if_pos ⟨ht0, htn⟩
  by_cases hge : r0.ts.getD 0 ≥ rn.ts.getD 0
  · have h1 : orderedNewestFirst m = true := by rw [ho]; exact decide_eq_true hge
    have hlt : ¬rn.ts.getD 0 ≥ r0.ts.getD 0 := fun hh => hne (le_antisymm hh hge)
    have h2 : orderedNewestFirst m.reverse = false := by
      rw [ho2]; exact decide_eq_false hlt
    unfold rowsSorted
    rw [h1, h2]
    simp
  · have h1 : orderedNewestFirst m = false := by rw [ho]; exact decide_eq_false hge
    have hgt : rn.ts.getD 0 ≥ r0.ts.getD 0 := le_of_not_le hge
    have h2 : orderedNewestFirst m.reverse = true := by
      rw [ho2]; exact decide_eq_true hgt
    unfold rowsSorted
    rw [h1, h2]
    simp

/-- C2 [counterexample]: a two-record history whose endpoint timestamps
are both known (non-zero) but equal: the heuristic reverses neither the
history nor its reversal, and the two orders give different pity for the
label "Standard" (0 versus 1). -/
theorem api_stats_reorder_counterexample :
    ([({ banner_label := some "Standard", rarity := some 5, ts := some 10 } : PRec),
        { banner_label := some "Standard", rarity := some 3, ts := some 10 }].head?.map
        (fun r => tsTruthy r.ts) = some true) ∧
    ([({ banner_label := some "Standard", rarity := some 5, ts := some 10 } : PRec),
        { banner_label := some "Standard", rarity := some 3, ts := some 10 }].getLast?.map
        (fun r => tsTruthy r.ts) = some true) ∧
    apiStatsPity
        [({ banner_label := some "Standard", rarity := some 5, ts := some 10 } : PRec),
         { banner_label := some "Standard", rarity := some 3, ts := some 10 }] ≠
      apiStatsPity
        ([({ banner_label := some "Standard", rarity := some 5, ts := some 10 } : PRec),
          { banner_label := some "Standard", rarity := some 3,
            ts := some 10 }].reverse) := by
  refine ⟨by decide, by decide, by decide⟩

/-- C2 [amended]: the engine re-derives order by comparing the endpoint
timestamps, reversing when the first is strictly older; consequently,
whenever both endpoint timestamps are known (non-sentinel) and distinct,
the pity map computed from a stored sequence equals the pity map computed
from the same sequence reversed. -/
theorem api_stats_reorder_pity_invariant (rows : List PRec) (r0 rn : PRec)
    (h0 : rows.head? = some r0) (hn : rows.getLast? = some rn)
    (ht0 : tsTruthy r0.ts = true) (htn : tsTruthy rn.ts = true)
    (hne : r0.ts.getD 0 ≠ rn.ts.getD 0) :
    apiStatsPity rows = apiStatsPity rows.reverse := by
  unfold apiStatsPity
  rw [List.map_reverse]
  have hs : rowsSorted (rows.map normRow) = rowsSorted (rows.map normRow).reverse := by
    apply rowsSorted_of_distinct_endpoints _ (normRow r0) (normRow rn)
    · rw [List.head?_map, h0]; rfl
    · rw [getLast?_map_pr, hn]; rfl
    · rw [normRow_ts]; exact ht0
    · rw [normRow_ts]; exact htn
    · rw [normRow_ts, normRow_ts]; exact hne
  unfold apiPityMap
  rw [hs]

/-- Witness for C2's amended theorem at a concrete input
(an oldest-first pair with distinct known timestamps). -/
theorem api_stats_reorder_pity_invariant_witness :
    ([({ banner_label := some "Standard", rarity := some 5, ts := some 10 } : PRec),
        { banner_label := some "Standard", rarity := some 3, ts := some 20 }].head? =
      some { banner_label := some "Standard", rarity := some 5, ts := some 10 }) ∧
    apiStatsPity
        [({ banner_label := some "Standard", rarity := some 5, ts := some 10 } : PRec),
         { banner_label := some "Standard", rarity := some 3, ts := some 20 }] =
      apiStatsPity
        ([({ banner_label := some "Standard", rarity := some 5, ts := some 10 } : PRec),
          { banner_label := some "Standard", rarity := some 3,
            ts := some 20 }].reverse) :=
  ⟨by decide,
   api_stats_reorder_pity_invariant _
     { banner_label := some "Standard", rarity := some 5, ts := some 10 }
     { banner_label := some "Standard", rarity := some 3, ts := some 20 }
     (by decide) (by decide) (by decide) (by decide) (by decide)⟩

/-! ### Claims about the endpoints -/

/-- C3 [counterexample]: a successfully persisted history of zero records
is answered by `GET /api/stats` with the same 404 "no data" response, not
with a zero-filled summary. -/
theorem api_stats_empty_history_counterexample :
    api_stats (FileState.present []) = StatsResp.notFound ∧
    api_stats (FileState.present []) ≠ StatsResp.ok 0 0 0 [] := by
  refine ⟨rfl, by decide⟩

/-- C3 [amended]: `GET /api/stats` answers 404 "no data" whenever the
loaded history is empty — because the file is missing, unreadable, or
holds an empty list — and answers with a summary exactly when the
persisted list is non-empty; the response therefore does not distinguish
"never fetched" from "fetched zero pulls". -/
theorem api_stats_no_data (rows : List PRec) (h : rows ≠ []) :
    api_stats FileState.missing = StatsResp.notFound ∧
    api_stats FileState.corrupt = StatsResp.notFound ∧
    api_stats (FileState.present []) = StatsResp.notFound ∧
    api_stats (FileState.present rows) ≠ StatsResp.notFound := by
  refine ⟨rfl, rfl, rfl, ?_⟩
  simp [api_stats, load_history, h]

/-- Witness for C3's amended theorem at a concrete input. -/
theorem api_stats_no_data_witness :
    ([({ id := some "1" } : PRec)] ≠ []) ∧
    (api_stats FileState.missing = StatsResp.notFound ∧
     api_stats FileState.corrupt = StatsResp.notFound ∧
     api_stats (FileState.present []) = StatsResp.notFound ∧
     api_stats (FileState.present [{ id := some "1" }]) ≠ StatsResp.notFound) :=
  ⟨by decide, api_stats_no_data [{ id := some "1" }] (by decide)⟩

/-- C10 [confirmed]: in `GET /api/history`, `limit=0` and `rarity=0` are
tested for truthiness, so both are ignored: `limit=0` behaves like an
absent limit (the full, untruncated list — not an empty one) and
`rarity=0` applies no rarity filter. -/
theorem api_history_zero_params_ignored (rows : List PRec) (banner : Option String)
    (rarity limit : Option Int) :
    (api_history rows banner rarity (some 0) = api_history rows banner rarity none ∧
     api_history rows banner (some 0) limit = api_history rows banner none limit) ∧
    api_history rows none none (some 0) = rows := by
  refine ⟨⟨?_, ?_⟩, ?_⟩ <;> simp [api_history, intTruthy, strTruthy]

/-! ### Byte-level lemmas for the query encoding -/

theorem hexDigitU_range (n : Nat) (h : n < 16) :
    (48 ≤ hexDigitU n ∧ hexDigitU n ≤ 57) ∨ (65 ≤ hexDigitU n ∧ hexDigitU n ≤ 70) := by
  unfold hexDigitU
  by_cases h10 : n < 10
  · rw [if_pos h10]; left; omega
  · rw [if_neg h10]; right; omega

theorem hexVal_hexDigitU (n : Nat) (h : n < 16) : hexVal (hexDigitU n) = some n := by
  unfold hexVal hexDigitU
  by_cases h10 : n < 10
  · rw [if_pos h10, if_pos (by omega)]
    exact congrArg some (by omega)
  · rw [if_neg h10, if_neg (by omega), if_pos (by omega)]
    exact congrArg some (by omega)

theorem hexVal_le (b x : Nat) (h : hexVal b = some x) : x ≤ 15 := by
  unfold hexVal at h
  by_cases h1 : 48 ≤ b ∧ b ≤ 57
  · rw [if_pos h1] at h; injection h with h; omega
  · rw [if_neg h1] at h
    by_cases h2 : 65 ≤ b ∧ b ≤ 70
    · rw [if_pos h2] at h; injection h with h; omega
    · rw [if_neg h2] at h
      by_cases h3 : 97 ≤ b ∧ b ≤ 102
      · rw [if_pos h3] at h; injection h with h; omega
      · rw [if_neg h3] at h; exact absurd h (by simp)

theorem hexVal_ne37 (b x : Nat) (h : hexVal b = some x) : b ≠ 37 := by
  intro hb
  subst hb
  simp [hexVal] at h

theorem isSafeB_props (b : Nat) (h : isSafeB b = true) :
    (48 ≤ b ∧ b ≤ 57) ∨ (65 ≤ b ∧ b ≤ 90) ∨ (97 ≤ b ∧ b ≤ 122) ∨
      b = 95 ∨ b = 46 ∨ b = 45 ∨ b = 126 := by
  simp [isSafeB, isDigitB, isAlphaB] at h
  omega

theorem QOut_ne (c : Nat) (h : QOut c) :
    c ≠ 38 ∧ c ≠ 61 ∧ c ≠ 63 ∧ c ≠ 35 ∧ c ≠ 9 ∧ c ≠ 10 ∧ c ≠ 13 ∧ c ≠ 58 := by
  unfold QOut at h
  omega

theorem quoteByte_out (b : Nat) : ∀ c ∈ quoteByte b, QOut c := by
  intro c hc
  unfold quoteByte at hc
  by_cases hs : isSafeB b = true
  · rw [if_pos hs] at hc
    simp at hc
    subst hc
    have h := isSafeB_props _ hs
    unfold QOut
    omega
  · rw [if_neg hs] at hc
    by_cases h32 : b = 32
    · rw [if_pos h32] at hc
      simp at hc
      subst hc
      unfold QOut
      omega
    · rw [if_neg h32] at hc
      have h1 := hexDigitU_range (b / 16 % 16) (Nat.mod_lt _ (by omega))
      have h2 := hexDigitU_range (b % 16) (Nat.mod_lt _ (by omega))
      simp at hc
      unfold QOut
      rcases hc with rfl | rfl | rfl <;> omega

theorem quote_plus_nil : quote_plus [] = [] := rfl

theorem quote_plus_cons (b : Nat) (s : PyStr) :
    quote_plus (b :: s) = quoteByte b ++ quote_plus s := by
  simp [quote_plus]

theorem mem_quote_plus (s : PyStr) : ∀ c ∈ quote_plus s, QOut c := by
  induction s with
  | nil => intro c hc; simp [quote_plus] at hc
  | cons b s ih =>
    intro c hc
    rw [quote_plus_cons] at hc
    rcases List.mem_append.mp hc with h | h
    · exact quoteByte_out b c h
    · exact ih c h

theorem quoteByte_ne_nil (b : Nat) : quoteByte b ≠ [] := by
  unfold quoteByte
  by_cases hs : isSafeB b = true
  · rw [if_pos hs]; simp
  · rw [if_neg hs]
    by_cases h32 : b = 32
    · rw [if_pos h32]; simp
    · rw [if_neg h32]; simp

theorem quote_plus_ne_nil (s : PyStr) (h : s ≠ []) : quote_plus s ≠ [] := by
  cases s with
  | nil => exact absurd rfl h
  | cons b t =>
    rw [quote_plus_cons]
    intro hh
    exact quoteByte_ne_nil b (List.append_eq_nil.mp hh).1

/-! ### `unquote` computation lemmas -/

theorem splitOnByteAux_not_sep (sep b : Nat) (rest : PyStr) (h : b ≠ sep) :
    splitOnByteAux sep (b :: rest) =
      (b :: (splitOnByteAux sep rest).1, (splitOnByteAux sep rest).2) := by
  conv_lhs => unfold splitOnByteAux
  simp [h]

theorem splitOnByteAux_sep (sep : Nat) (rest : PyStr) :
    splitOnByteAux sep (sep :: rest) =
      ([], (splitOnByteAux sep rest).1 :: (splitOnByteAux sep rest).2) := by
  conv_lhs => unfold splitOnByteAux
  simp

theorem decodeItem_ok (d1 d2 : Nat) (rest : PyStr) (x y : Nat)
    (hx : hexVal d1 = some x) (hy : hexVal d2 = some y) :
    decodeItem (d1 :: d2 :: rest) = (16 * x + y) :: rest := by
  simp only [decodeItem]
  rw [hx, hy]

theorem decodeItem_bad1 (d1 d2 : Nat) (rest : PyStr) (hx : hexVal d1 = none) :
    decodeItem (d1 :: d2 :: rest) = 37 :: d1 :: d2 :: rest := by
  simp only [decodeItem]
  rw [hx]

theorem decodeItem_bad2 (d1 d2 : Nat) (rest : PyStr) (x : Nat)
    (hx : hexVal d1 = some x) (hy : hexVal d2 = none) :
    decodeItem (d1 :: d2 :: rest) = 37 :: d1 :: d2 :: rest := by
  simp only [decodeItem]
  rw [hx, hy]

theorem unquote_cons_ne37 (c : Nat) (u : PyStr) (h : c ≠ 37) :
    unquote (c :: u) = c :: unquote u := by
  unfold unquote splitOnByte
  rw [splitOnByteAux_not_sep 37 c u h]
  rfl

theorem unquote_percent_ok (d1 d2 : Nat) (u : PyStr) (x y : Nat)
    (hx : hexVal d1 = some x) (hy : hexVal d2 = some y) :
    unquote (37 :: d1 :: d2 :: u) = (16 * x + y) :: unquote u := by
  unfold unquote splitOnByte
  rw [splitOnByteAux_sep 37 (d1 :: d2 :: u),
    splitOnByteAux_not_sep 37 d1 (d2 :: u) (hexVal_ne37 d1 x hx),
    splitOnByteAux_not_sep 37 d2 u (hexVal_ne37 d2 y hy)]
  show (List.map decodeItem
      ((d1 :: d2 :: (splitOnByteAux 37 u).1) :: (splitOnByteAux 37 u).2)).flatten = _
  rw [List.map_cons, List.flatten_cons,
    decodeItem_ok d1 d2 (splitOnByteAux 37 u).1 x y hx hy]
  rfl

theorem unquote_nil : unquote [] = [] := rfl

theorem splitOnByteAux_mem (sep : Nat) :
    ∀ s : PyStr, (∀ b ∈ (splitOnByteAux sep s).1, b ∈ s) ∧
      (∀ seg ∈ (splitOnByteAux sep s).2, ∀ b ∈ seg, b ∈ s) := by
  intro s
  induction s with
  | nil => refine ⟨?_, ?_⟩ <;> simp [splitOnByteAux]
  | cons c rest ih =>
    by_cases hcs : c = sep
    · subst hcs
      rw [splitOnByteAux_sep]
      refine ⟨by simp, ?_⟩
      intro seg hseg b hb
      simp only [List.mem_cons] at hseg
      rcases hseg with rfl | hseg
      · exact List.mem_cons_of_mem _ (ih.1 b hb)
      · exact List.mem_cons_of_mem _ (ih.2 seg hseg b hb)
    · rw [splitOnByteAux_not_sep sep c rest hcs]
      refine ⟨?_, ?_⟩
      · intro b hb
        simp only [List.mem_cons] at hb
        rcases hb with rfl | hb
        · exact List.mem_cons_self _ _
        · exact List.mem_cons_of_mem _ (ih.1 b hb)
      · intro seg hseg b hb
        exact List.mem_cons_of_mem _ (ih.2 seg hseg b hb)

theorem decodeItem_mem_lt (item : PyStr) (h : ∀ b ∈ item, b < 256) :
    ∀ b ∈ decodeItem item, b < 256 := by
  intro b hb
  cases item with
  | nil => simp [decodeItem] at hb; omega
  | cons d1 t =>
    cases t with
    | nil =>
      simp [decodeItem] at hb
      rcases hb with rfl | rfl
      · omega
      · exact h _ (List.mem_cons_self _ _)
    | cons d2 r =>
      cases hx : hexVal d1 with
      | none =>
        rw [decodeItem_bad1 d1 d2 r hx] at hb
        simp only [List.mem_cons] at hb
        rcases hb with rfl | hb
        · omega
        · exact h b (by simp only [List.mem_cons]; exact hb)
      | some x =>
        cases hy : hexVal d2 with
        | none =>
          rw [decodeItem_bad2 d1 d2 r x hx hy] at hb
          simp only [List.mem_cons] at hb
          rcases hb with rfl | hb
          · omega
          · exact h b (by simp only [List.mem_cons]; exact hb)
        | some y =>
          rw [decodeItem_ok d1 d2 r x y hx hy] at hb
          simp at hb
          rcases hb with rfl | hb
          · have hx15 := hexVal_le d1 x hx
            have hy15 := hexVal_le d2 y hy
            omega
          · exact h b (List.mem_cons_of_mem _ (List.mem_cons_of_mem _ hb))

theorem decodeItem_ne_nil (item : PyStr) : decodeItem item ≠ [] := by
  cases item with
  | nil => simp [decodeItem]
  | cons d1 t =>
    cases t with
    | nil => simp [decodeItem]
    | cons d2 r =>
      cases hx : hexVal d1 with
      | none => rw [decodeItem_bad1 d1 d2 r hx]; simp
      | some x =>
        cases hy : hexVal d2 with
        | none => rw [decodeItem_bad2 d1 d2 r x hx hy]; simp
        | some y => rw [decodeItem_ok d1 d2 r x y hx hy]; simp

theorem unquote_eq (s : PyStr) :
    unquote s = (splitOnByteAux 37 s).1 ++
      (((splitOnByteAux 37 s).2).map decodeItem).flatten := by
  unfold unquote splitOnByte
  rfl

theorem mem_unquote_lt (s : PyStr) (h : ∀ b ∈ s, b < 256) :
    ∀ b ∈ unquote s, b < 256 := by
  intro b hb
  rw [unquote_eq] at hb
  rcases List.mem_append.mp hb with hb | hb
  · exact h b ((splitOnByteAux_mem 37 s).1 b hb)
  · rcases List.mem_flatten.mp hb with ⟨seg, hseg, hbseg⟩
    rcases List.mem_map.mp hseg with ⟨item, hitem, rfl⟩
    refine decodeItem_mem_lt item ?_ b hbseg
    intro c hc
    exact h c ((splitOnByteAux_mem 37 s).2 item hitem c hc)

theorem unquote_ne_nil (s : PyStr) (h : s ≠ []) : unquote s ≠ [] := by
  cases s with
  | nil => exact absurd rfl h
  | cons c u =>
    by_cases hc : c = 37
    · subst hc
      rw [unquote_eq, splitOnByteAux_sep]
      simp only [List.map_cons, List.flatten_cons, List.nil_append]
      intro hh
      exact decodeItem_ne_nil _ (List.append_eq_nil.mp hh).1
    · rw [unquote_cons_ne37 c u hc]
      simp

/-! ### The quote/unquote round trip -/

theorem isSafeB_ne (b : Nat) (h : isSafeB b = true) : b ≠ 43 ∧ b ≠ 37 := by
  have := isSafeB_props b h
  omega

theorem unquote_plus_quote_cons (b : Nat) (hb : b < 256) (s : PyStr) :
    unquote_plus (quote_plus (b :: s)) = b :: unquote_plus (quote_plus s) := by
  unfold unquote_plus plusToSpace
  rw [quote_plus_cons, List.map_append]
  by_cases hs : isSafeB b = true
  · have hne := isSafeB_ne b hs
    have h1 : quoteByte b = [b] := by unfold quoteByte; rw [if_pos hs]
    rw [h1]
    have h2 : List.map (fun c => if c = 43 then 32 else c) [b] = [b] := by
      simp [hne.1]
    rw [h2]
    exact unquote_cons_ne37 b _ hne.2
  · by_cases h32 : b = 32
    · subst h32
      have h1 : quoteByte 32 = [43] := by
        unfold quoteByte
        rw [if_neg hs, if_pos rfl]
      rw [h1]
      have h2 : List.map (fun c => if c = 43 then 32 else c) [43] = [32] := by simp
      rw [h2]
      exact unquote_cons_ne37 32 _ (by omega)
    · have h1 : quoteByte b = [37, hexDigitU (b / 16 % 16), hexDigitU (b % 16)] := by
        unfold quoteByte
        rw [if_neg hs, if_neg h32]
      rw [h1]
      have r1 := hexDigitU_range (b / 16 % 16) (Nat.mod_lt _ (by omega))
      have r2 := hexDigitU_range (b % 16) (Nat.mod_lt _ (by omega))
      have h2 : List.map (fun c => if c = 43 then 32 else c)
          [37, hexDigitU (b / 16 % 16), hexDigitU (b % 16)] =
          [37, hexDigitU (b / 16 % 16), hexDigitU (b % 16)] := by
        have n1 : hexDigitU (b / 16 % 16) ≠ 43 := by omega
        have n2 : hexDigitU (b % 16) ≠ 43 := by omega
        simp [n1, n2]
      rw [h2]
      simp only [List.cons_append, List.nil_append]
      rw [unquote_percent_ok _ _ _ _ _
        (hexVal_hexDigitU _ (Nat.mod_lt _ (by omega)))
        (hexVal_hexDigitU _ (Nat.mod_lt _ (by omega)))]
      congr 1
      have hd : b / 16 < 16 := by omega
      rw [Nat.mod_eq_of_lt hd]
      omega

theorem unquote_plus_quote_plus (s : PyStr) (h : ∀ b ∈ s, b < 256) :
    unquote_plus (quote_plus s) = s := by
  induction s with
  | nil => rfl
  | cons b t ih =>
    rw [unquote_plus_quote_cons b (h b (List.mem_cons_self _ _)) t,
      ih (fun c hc => h c (List.mem_cons_of_mem _ hc))]

/-! ### Splitting the joined query string -/

theorem splitOnByteAux_front (sep : Nat) (s t : PyStr) (hs : ∀ b ∈ s, b ≠ sep) :
    splitOnByteAux sep (s ++ t) =
      (s ++ (splitOnByteAux sep t).1, (splitOnByteAux sep t).2) := by
  induction s with
  | nil => simp
  | cons c s ih =>
    have hc : c ≠ sep := hs c (List.mem_cons_self _ _)
    rw [List.cons_append, splitOnByteAux_not_sep sep c _ hc,
      ih (fun b hb => hs b (List.mem_cons_of_mem _ hb))]
    simp

theorem splitOnByteAux_no_sep (sep : Nat) (s : PyStr) (hs : ∀ b ∈ s, b ≠ sep) :
    splitOnByteAux sep s = (s, []) := by
  have h := splitOnByteAux_front sep s [] hs
  simpa [splitOnByteAux] using h

theorem joinSep_cons_cons (sep : Nat) (seg seg2 : PyStr) (rest : List PyStr) :
    joinSep sep (seg :: seg2 :: rest) = seg ++ sep :: joinSep sep (seg2 :: rest) := rfl

theorem splitOnByte_joinSep (segs : List PyStr) (hne : segs ≠ [])
    (h : ∀ seg ∈ segs, ∀ b ∈ seg, b ≠ 38) :
    splitOnByte 38 (joinSep 38 segs) = segs := by
  induction segs with
  | nil => exact absurd rfl hne
  | cons seg rest ih =>
    cases rest with
    | nil =>
      show splitOnByte 38 (joinSep 38 [seg]) = [seg]
      unfold splitOnByte
      rw [show joinSep 38 [seg] = seg from rfl,
        splitOnByteAux_no_sep 38 seg (h seg (List.mem_cons_self _ _))]
    | cons seg2 rest2 =>
      rw [joinSep_cons_cons]
      unfold splitOnByte
      rw [splitOnByteAux_front 38 seg _ (h seg (List.mem_cons_self _ _)),
        splitOnByteAux_sep]
      have hih := ih (by simp) (fun sg hsg => h sg (List.mem_cons_of_mem _ hsg))
      unfold splitOnByte at hih
      simp only [List.append_nil]
      rw [hih]

theorem splitFirstByte_append (sep : Nat) (s t : PyStr) (hs : ∀ b ∈ s, b ≠ sep) :
    splitFirstByte sep (s ++ sep :: t) = some (s, t) := by
  induction s with
  | nil => simp [splitFirstByte]
  | cons c s ih =>
    have hc : c ≠ sep := hs c (List.mem_cons_self _ _)
    rw [List.cons_append]
    unfold splitFirstByte
    rw [if_neg hc, ih (fun b hb => hs b (List.mem_cons_of_mem _ hb))]
    rfl

theorem splitFirstByte_none (sep : Nat) (s : PyStr) (hs : ∀ b ∈ s, b ≠ sep) :
    splitFirstByte sep s = none := by
  induction s with
  | nil => rfl
  | cons c s ih =>
    unfold splitFirstByte
    rw [if_neg (hs c (List.mem_cons_self _ _)),
      ih (fun b hb => hs b (List.mem_cons_of_mem _ hb))]
    rfl

/-! ### `parse_qs` of `urlencode` -/

theorem parseChunk_seg (k v : PyStr) (hk : ∀ b ∈ k, b < 256)
    (hv : ∀ b ∈ v, b < 256) (hvne : v ≠ []) :
    parseChunk (quote_plus k ++ 61 :: quote_plus v) = some (k, v) := by
  unfold parseChunk
  rw [if_neg (by simp)]
  have h61 : ∀ b ∈ quote_plus k, b ≠ 61 :=
    fun b hb => (QOut_ne b (mem_quote_plus k b hb)).2.1
  rw [splitFirstByte_append 61 _ _ h61]
  show (if quote_plus v = [] then none else _) = _
  rw [if_neg (quote_plus_ne_nil v hvne)]
  rw [unquote_plus_quote_plus k hk, unquote_plus_quote_plus v hv]

theorem filterMap_encPair (k : PyStr) (vs : List PyStr) (hk : ∀ b ∈ k, b < 256)
    (hvs : ∀ v ∈ vs, v ≠ [] ∧ ∀ b ∈ v, b < 256) :
    List.filterMap parseChunk (encPair (k, vs)) = vs.map (fun v => (k, v)) := by
  induction vs with
  | nil => rfl
  | cons v vs ih =>
    show List.filterMap parseChunk
        ((quote_plus k ++ 61 :: quote_plus v) :: encPair (k, vs)) = _
    rw [List.filterMap_cons]
    rw [parseChunk_seg k v hk (hvs v (List.mem_cons_self _ _)).2
      (hvs v (List.mem_cons_self _ _)).1]
    rw [ih (fun w hw => hvs w (List.mem_cons_of_mem _ hw))]
    rfl

theorem filterMap_segments (q : List (PyStr × List PyStr))
    (hq : ∀ kv ∈ q, (∀ b ∈ kv.1, b < 256) ∧ ∀ v ∈ kv.2, v ≠ [] ∧ ∀ b ∈ v, b < 256) :
    List.filterMap parseChunk ((q.map encPair).flatten) = flatPairs q := by
  induction q with
  | nil => rfl
  | cons kv q ih =>
    rw [List.map_cons, List.flatten_cons, List.filterMap_append]
    have hkv := hq kv (List.mem_cons_self _ _)
    have h1 : List.filterMap parseChunk (encPair kv) =
        kv.2.map (fun v => (kv.1, v)) := by
      have h := filterMap_encPair kv.1 kv.2 hkv.1 hkv.2
      exact h
    rw [h1, ih (fun kw hkw => hq kw (List.mem_cons_of_mem _ hkw))]
    rfl

theorem mem_segments_ne38 (q : List (PyStr × List PyStr)) :
    ∀ seg ∈ (q.map encPair).flatten, ∀ b ∈ seg, b ≠ 38 := by
  intro seg hseg b hb
  rcases List.mem_flatten.mp hseg with ⟨l, hl, hsegl⟩
  rcases List.mem_map.mp hl with ⟨kv, _, rfl⟩
  rcases List.mem_map.mp hsegl with ⟨v, _, rfl⟩
  rcases List.mem_append.mp hb with hbk | hbv
  · exact (QOut_ne b (mem_quote_plus _ b hbk)).1
  · rcases List.mem_cons.mp hbv with rfl | hbv
    · omega
    · exact (QOut_ne b (mem_quote_plus _ b hbv)).1

theorem parse_qsl_urlencode (q : List (PyStr × List PyStr))
    (hq : ∀ kv ∈ q, (∀ b ∈ kv.1, b < 256) ∧ kv.2 ≠ [] ∧
      ∀ v ∈ kv.2, v ≠ [] ∧ ∀ b ∈ v, b < 256) :
    parse_qsl (urlencode q) = flatPairs q := by
  cases q with
  | nil => rfl
  | cons kv q =>
    have hkv := hq kv (List.mem_cons_self _ _)
    have hsegne : ((kv :: q).map encPair).flatten ≠ [] := by
      rcases List.exists_cons_of_ne_nil hkv.2.1 with ⟨v, vs, hv⟩
      simp only [List.map_cons, List.flatten_cons]
      intro hh
      rcases List.append_eq_nil.mp hh with ⟨h1, _⟩
      rw [show encPair kv = kv.2.map (fun v => quote_plus kv.1 ++ 61 :: quote_plus v)
        from rfl, hv] at h1
      simp at h1
    unfold parse_qsl urlencode
    rw [splitOnByte_joinSep _ hsegne (mem_segments_ne38 (kv :: q))]
    exact filterMap_segments (kv :: q)
      (fun kw hkw => ⟨(hq kw hkw).1, (hq kw hkw).2.2⟩)

theorem addPair_fresh (d : List (PyStr × List PyStr)) (k : PyStr) (v : PyStr)
    (h : ∀ kv ∈ d, kv.1 ≠ k) : addPair d k v = d ++ [(k, [v])] := by
  induction d with
  | nil => rfl
  | cons kv d ih =>
    unfold addPair
    rw [if_neg (h kv (List.mem_cons_self _ _)),
      ih (fun kw hkw => h kw (List.mem_cons_of_mem _ hkw))]
    rfl

theorem addPair_last (d : List (PyStr × List PyStr)) (k : PyStr) (vs : List PyStr)
    (v : PyStr) (h : ∀ kv ∈ d, kv.1 ≠ k) :
    addPair (d ++ [(k, vs)]) k v = d ++ [(k, vs ++ [v])] := by
  induction d with
  | nil =>
    show addPair [(k, vs)] k v = [(k, vs ++ [v])]
    unfold addPair
    rw [if_pos rfl]
  | cons kv d ih =>
    rw [List.cons_append]
    unfold addPair
    rw [if_neg (h kv (List.mem_cons_self _ _)),
      ih (fun kw hkw => h kw (List.mem_cons_of_mem _ hkw))]
    rfl

theorem foldl_group (k : PyStr) (vs : List PyStr) :
    ∀ (d : List (PyStr × List PyStr)) (vprev : List PyStr), (∀ kv ∈ d, kv.1 ≠ k) →
      List.foldl (fun d kv => addPair d kv.1 kv.2) (d ++ [(k, vprev)])
        (vs.map (fun v => (k, v))) = d ++ [(k, vprev ++ vs)] := by
  induction vs with
  | nil => intro d vprev _; simp
  | cons v vs ih =>
    intro d vprev h
    rw [List.map_cons, List.foldl_cons]
    have h1 : addPair (d ++ [(k, vprev)]) k v = d ++ [(k, vprev ++ [v])] :=
      addPair_last d k vprev v h
    rw [h1, ih d (vprev ++ [v]) h]
    simp

theorem foldl_flatPairs (q : List (PyStr × List PyStr)) :
    ∀ d : List (PyStr × List PyStr), (∀ kv ∈ q, ∀ kw ∈ d, kw.1 ≠ kv.1) →
      List.Pairwise (fun a b => a.1 ≠ b.1) q → (∀ kv ∈ q, kv.2 ≠ []) →
      List.foldl (fun d kv => addPair d kv.1 kv.2) d (flatPairs q) = d ++ q := by
  induction q with
  | nil => intro d _ _ _; simp [flatPairs]
  | cons kv q ih =>
    intro d hdisj hpw hne
    rcases List.exists_cons_of_ne_nil (hne kv (List.mem_cons_self _ _)) with ⟨v, vs, hv⟩
    have hstep : flatPairs (kv :: q) =
        kv.2.map (fun v => (kv.1, v)) ++ flatPairs q := by
      simp [flatPairs]
    rw [hstep, List.foldl_append, hv, List.map_cons, List.foldl_cons]
    have hfresh : ∀ kw ∈ d, kw.1 ≠ kv.1 :=
      fun kw hkw => hdisj kv (List.mem_cons_self _ _) kw hkw
    rw [addPair_fresh d kv.1 v hfresh]
    rw [foldl_group kv.1 vs d [v] hfresh]
    have hkveq : (kv.1, ([v] ++ vs : List PyStr)) = kv := by
      show (kv.1, v :: vs) = kv
      rw [← hv]
    rw [hkveq]
    have hdisj2 : ∀ kw ∈ q, ∀ kz ∈ d ++ [kv], kz.1 ≠ kw.1 := by
      intro kw hkw kz hkz
      rcases List.mem_append.mp hkz with hz | hz
      · exact hdisj kw (List.mem_cons_of_mem _ hkw) kz hz
      · rcases List.mem_cons.mp hz with rfl | hz
        · exact (List.pairwise_cons.mp hpw).1 kw hkw
        · simp at hz
    rw [ih (d ++ [kv]) hdisj2 (List.pairwise_cons.mp hpw).2
      (fun kw hkw => hne kw (List.mem_cons_of_mem _ hkw))]
    simp

theorem parse_qs_urlencode (q : List (PyStr × List PyStr)) (hq : GoodDict q) :
    parse_qs (urlencode q) = q := by
  unfold parse_qs
  rw [parse_qsl_urlencode q hq.2]
  have h := foldl_flatPairs q [] (by simp) hq.1
    (fun kv hkv => (hq.2 kv hkv).2.1)
  simpa using h

/-! ### `parse_qs` produces a well-formed dictionary -/

theorem mem_plusToSpace_lt (s : PyStr) (h : ∀ b ∈ s, b < 256) :
    ∀ b ∈ plusToSpace s, b < 256 := by
  intro b hb
  rcases List.mem_map.mp hb with ⟨c, hc, rfl⟩
  by_cases h43 : c = 43
  · simp [h43]
  · simp [h43]
    exact h c hc

theorem unquote_plus_lt (s : PyStr) (h : ∀ b ∈ s, b < 256) :
    ∀ b ∈ unquote_plus s, b < 256 :=
  mem_unquote_lt (plusToSpace s) (mem_plusToSpace_lt s h)

theorem unquote_plus_ne_nil (s : PyStr) (h : s ≠ []) : unquote_plus s ≠ [] := by
  refine unquote_ne_nil (plusToSpace s) ?_
  cases s with
  | nil => exact absurd rfl h
  | cons c t => simp [plusToSpace]

theorem splitFirstByte_mem (sep : Nat) :
    ∀ (s a bpart : PyStr), splitFirstByte sep s = some (a, bpart) →
      (∀ c ∈ a, c ∈ s) ∧ ∀ c ∈ bpart, c ∈ s := by
  intro s
  induction s with
  | nil => intro a bpart h; simp [splitFirstByte] at h
  | cons c s ih =>
    intro a bpart h
    unfold splitFirstByte at h
    by_cases hc : c = sep
    · rw [if_pos hc] at h
      injection h with h
      rw [Prod.mk.injEq] at h
      obtain ⟨h1, h2⟩ := h
      subst h1
      subst h2
      refine ⟨?_, fun d hd => List.mem_cons_of_mem _ hd⟩
      intro d hd
      exact absurd hd (List.not_mem_nil d)
    · rw [if_neg hc] at h
      cases hrec : splitFirstByte sep s with
      | none => rw [hrec] at h; simp at h
      | some kv =>
        rw [hrec] at h
        have h3 : some (c :: kv.1, kv.2) = some (a, bpart) := h
        injection h3 with h3
        rw [Prod.mk.injEq] at h3
        obtain ⟨ha, hb⟩ := h3
        rcases ih kv.1 kv.2 (by rw [hrec]) with ⟨ih1, ih2⟩
        constructor
        · intro d hd
          rw [← ha] at hd
          rcases List.mem_cons.mp hd with rfl | hd
          · exact List.mem_cons_self _ _
          · exact List.mem_cons_of_mem _ (ih1 d hd)
        · intro d hd
          rw [← hb] at hd
          exact List.mem_cons_of_mem _ (ih2 d hd)

/-- What `parseChunk` can return: an unquoted key/value pair of parts of
the chunk, with a non-empty value. -/
theorem parseChunk_spec (nv : PyStr) (kv : PyStr × PyStr)
    (h : parseChunk nv = some kv) :
    ∃ a bpart : PyStr, (∀ c ∈ a, c ∈ nv) ∧ (∀ c ∈ bpart, c ∈ nv) ∧ bpart ≠ [] ∧
      kv = (unquote_plus a, unquote_plus bpart) := by
  unfold parseChunk at h
  by_cases hnil : nv = []
  · rw [if_pos hnil] at h; simp at h
  · rw [if_neg hnil] at h
    cases hsp : splitFirstByte 61 nv with
    | none => rw [hsp] at h; simp at h
    | some ab =>
      rw [hsp] at h
      have h2 : (if ab.2 = [] then (none : Option (PyStr × PyStr))
          else some (unquote_plus ab.1, unquote_plus ab.2)) = some kv := h
      by_cases hb : ab.2 = []
      · rw [if_pos hb] at h2; simp at h2
      · rw [if_neg hb] at h2
        injection h2 with h2
        rcases splitFirstByte_mem 61 nv ab.1 ab.2 (by rw [hsp]) with ⟨hm1, hm2⟩
        exact ⟨ab.1, ab.2, hm1, hm2, hb, h2.symm⟩

theorem parse_qsl_vals (qs : PyStr) :
    ∀ kv ∈ parse_qsl qs, kv.2 ≠ [] ∧
      ((∀ b ∈ qs, b < 256) → (∀ b ∈ kv.1, b < 256) ∧ ∀ b ∈ kv.2, b < 256) := by
  intro kv hkv
  unfold parse_qsl at hkv
  rcases List.mem_filterMap.mp hkv with ⟨nv, hnv, hchunk⟩
  rcases parseChunk_spec nv kv hchunk with ⟨a, bpart, ha, hb, hbne, rfl⟩
  have hnvmem : ∀ c ∈ nv, c ∈ qs := by
    intro c hc
    rcases List.mem_cons.mp hnv with rfl | hseg
    · exact (splitOnByteAux_mem 38 qs).1 c hc
    · exact (splitOnByteAux_mem 38 qs).2 nv hseg c hc
  refine ⟨unquote_plus_ne_nil bpart hbne, fun hqs => ⟨?_, ?_⟩⟩
  · exact unquote_plus_lt a (fun c hc => hqs c (hnvmem c (ha c hc)))
  · exact unquote_plus_lt bpart (fun c hc => hqs c (hnvmem c (hb c hc)))

theorem mem_addPair (d : List (PyStr × List PyStr)) (k : PyStr) (v : PyStr) :
    ∀ kv ∈ addPair d k v,
      (∃ kw ∈ d, kv = kw) ∨ kv = (k, [v]) ∨ ∃ kw ∈ d, kv = (kw.1, kw.2 ++ [v]) := by
  intro kv hkv
  induction d with
  | nil =>
    simp [addPair] at hkv
    exact Or.inr (Or.inl hkv)
  | cons kw d ih =>
    unfold addPair at hkv
    by_cases hk : kw.1 = k
    · rw [if_pos hk] at hkv
      rcases List.mem_cons.mp hkv with rfl | hkv
      · exact Or.inr (Or.inr ⟨kw, List.mem_cons_self _ _, rfl⟩)
      · exact Or.inl ⟨kv, List.mem_cons_of_mem _ hkv, rfl⟩
    · rw [if_neg hk] at hkv
      rcases List.mem_cons.mp hkv with rfl | hkv
      · exact Or.inl ⟨kv, List.mem_cons_self _ _, rfl⟩
      · rcases ih hkv with ⟨kz, hkz, hkveq⟩ | h | ⟨kz, hkz, hkveq⟩
        · exact Or.inl ⟨kz, List.mem_cons_of_mem _ hkz, hkveq⟩
        · exact Or.inr (Or.inl h)
        · exact Or.inr (Or.inr ⟨kz, List.mem_cons_of_mem _ hkz, hkveq⟩)

theorem addPair_keys_sub (d : List (PyStr × List PyStr)) (k : PyStr) (v : PyStr) :
    ∀ kv ∈ addPair d k v, kv.1 ∈ d.map Prod.fst ∨ kv.1 = k := by
  intro kv hkv
  rcases mem_addPair d k v kv hkv with ⟨kw, hkw, rfl⟩ | rfl | ⟨kw, hkw, rfl⟩
  · exact Or.inl (List.mem_map_of_mem _ hkw)
  · exact Or.inr rfl
  · refine Or.inl ?_
    show kw.1 ∈ d.map Prod.fst
    exact List.mem_map_of_mem Prod.fst hkw

theorem addPair_pairwise (d : List (PyStr × List PyStr)) (k : PyStr) (v : PyStr)
    (hd : List.Pairwise (fun a b => a.1 ≠ b.1) d) :
    List.Pairwise (fun a b => a.1 ≠ b.1) (addPair d k v) := by
  induction d with
  | nil => simp [addPair]
  | cons kw d ih =>
    unfold addPair
    by_cases hk : kw.1 = k
    · rw [if_pos hk]
      refine List.pairwise_cons.mpr ⟨?_, (List.pairwise_cons.mp hd).2⟩
      exact fun kz hkz => (List.pairwise_cons.mp hd).1 kz hkz
    · rw [if_neg hk]
      refine List.pairwise_cons.mpr ⟨?_, ih (List.pairwise_cons.mp hd).2⟩
      intro kz hkz
      rcases addPair_keys_sub d k v kz hkz with hz | hz
      · rcases List.mem_map.mp hz with ⟨kw2, hkw2, hfst⟩
        intro hh
        exact (List.pairwise_cons.mp hd).1 kw2 hkw2 (hh.trans hfst.symm)
      · rw [hz]
        exact hk

theorem addPair_vals (d : List (PyStr × List PyStr)) (k : PyStr) (v : PyStr)
    (P : PyStr → Prop)
    (hd : ∀ kv ∈ d, kv.2 ≠ [] ∧ ∀ w ∈ kv.2, P w) (hv : P v) :
    ∀ kv ∈ addPair d k v, kv.2 ≠ [] ∧ ∀ w ∈ kv.2, P w := by
  intro kv hkv
  rcases mem_addPair d k v kv hkv with ⟨kw, hkw, rfl⟩ | rfl | ⟨kw, hkw, rfl⟩
  · exact hd _ hkw
  · exact ⟨by simp, by simpa using hv⟩
  · refine ⟨by simp, ?_⟩
    intro w hw
    rcases List.mem_append.mp hw with hw | hw
    · exact (hd kw hkw).2 w hw
    · simp at hw
      rw [hw]
      exact hv

theorem addPair_valP (d : List (PyStr × List PyStr)) (k : PyStr) (v : PyStr)
    (P : PyStr → Prop)
    (hd : ∀ kv ∈ d, ∀ w ∈ kv.2, P w) (hv : P v) :
    ∀ kv ∈ addPair d k v, ∀ w ∈ kv.2, P w := by
  intro kv hkv
  rcases mem_addPair d k v kv hkv with ⟨kw, hkw, rfl⟩ | rfl | ⟨kw, hkw, rfl⟩
  · exact hd _ hkw
  · simpa using hv
  · intro w hw
    rcases List.mem_append.mp hw with hw | hw
    · exact hd kw hkw w hw
    · simp at hw
      rw [hw]
      exact hv

theorem addPair_keybytes (d : List (PyStr × List PyStr)) (k : PyStr) (v : PyStr)
    (hd : ∀ kv ∈ d, ∀ b ∈ kv.1, b < 256) (hk : ∀ b ∈ k, b < 256) :
    ∀ kv ∈ addPair d k v, ∀ b ∈ kv.1, b < 256 := by
  intro kv hkv
  rcases mem_addPair d k v kv hkv with ⟨kw, hkw, rfl⟩ | rfl | ⟨kw, hkw, rfl⟩
  · exact hd _ hkw
  · exact hk
  · show ∀ b ∈ kw.1, b < 256
    exact hd _ hkw

theorem parse_qs_pairwise (qs : PyStr) :
    List.Pairwise (fun a b => a.1 ≠ b.1) (parse_qs qs) := by
  unfold parse_qs
  generalize parse_qsl qs = pairs
  have h : ∀ (ps : List (PyStr × PyStr)) (d : List (PyStr × List PyStr)),
      List.Pairwise (fun a b => a.1 ≠ b.1) d →
      List.Pairwise (fun a b => a.1 ≠ b.1)
        (List.foldl (fun d kv => addPair d kv.1 kv.2) d ps) := by
    intro ps
    induction ps with
    | nil => intro d hd; exact hd
    | cons p ps ih =>
      intro d hd
      rw [List.foldl_cons]
      exact ih _ (addPair_pairwise d p.1 p.2 hd)
  exact h pairs [] (by simp)

theorem parse_qs_vals (qs : PyStr) :
    ∀ kv ∈ parse_qs qs, kv.2 ≠ [] ∧ ∀ w ∈ kv.2, w ≠ [] := by
  unfold parse_qs
  have hvals := parse_qsl_vals qs
  generalize hg : parse_qsl qs = pairs
  rw [hg] at hvals
  have h : ∀ (ps : List (PyStr × PyStr)) (d : List (PyStr × List PyStr)),
      (∀ p ∈ ps, p.2 ≠ []) →
      (∀ kv ∈ d, kv.2 ≠ [] ∧ ∀ w ∈ kv.2, w ≠ []) →
      ∀ kv ∈ List.foldl (fun d kv => addPair d kv.1 kv.2) d ps,
        kv.2 ≠ [] ∧ ∀ w ∈ kv.2, w ≠ [] := by
    intro ps
    induction ps with
    | nil => intro d _ hd; exact hd
    | cons p ps ih =>
      intro d hps hd
      rw [List.foldl_cons]
      exact ih _ (fun w hw => hps w (List.mem_cons_of_mem _ hw))
        (addPair_vals d p.1 p.2 (fun w => w ≠ []) hd
          (hps p (List.mem_cons_self _ _)))
  exact h pairs [] (fun p hp => (hvals p hp).1) (by simp)

theorem parse_qs_bytes (qs : PyStr) (hqs : ∀ b ∈ qs, b < 256) :
    ∀ kv ∈ parse_qs qs, (∀ b ∈ kv.1, b < 256) ∧ ∀ w ∈ kv.2, ∀ b ∈ w, b < 256 := by
  unfold parse_qs
  have hvals := parse_qsl_vals qs
  generalize hg : parse_qsl qs = pairs
  rw [hg] at hvals
  have h : ∀ (ps : List (PyStr × PyStr)) (d : List (PyStr × List PyStr)),
      (∀ p ∈ ps, (∀ b ∈ p.1, b < 256) ∧ ∀ b ∈ p.2, b < 256) →
      (∀ kv ∈ d, (∀ b ∈ kv.1, b < 256) ∧ ∀ w ∈ kv.2, ∀ b ∈ w, b < 256) →
      ∀ kv ∈ List.foldl (fun d kv => addPair d kv.1 kv.2) d ps,
        (∀ b ∈ kv.1, b < 256) ∧ ∀ w ∈ kv.2, ∀ b ∈ w, b < 256 := by
    intro ps
    induction ps with
    | nil => intro d _ hd; exact hd
    | cons p ps ih =>
      intro d hps hd
      rw [List.foldl_cons]
      refine ih _ (fun w hw => hps w (List.mem_cons_of_mem _ hw)) ?_
      intro kv hkv
      refine ⟨addPair_keybytes d p.1 p.2 (fun kw hkw => (hd kw hkw).1)
        (hps p (List.mem_cons_self _ _)).1 kv hkv, ?_⟩
      exact addPair_valP d p.1 p.2 (fun w => ∀ b ∈ w, b < 256)
        (fun kw hkw => (hd kw hkw).2) (hps p (List.mem_cons_self _ _)).2 kv hkv
  exact h pairs [] (fun p hp => ((hvals p hp).2 hqs)) (by simp)

/-! ### Lookup lemmas for the query dictionary -/

theorem assocLookup_cons (kv : PyStr × List PyStr) (q : List (PyStr × List PyStr))
    (k : PyStr) :
    assocLookup (kv :: q) k = if kv.1 = k then some kv.2 else assocLookup q k := rfl

theorem assocLookup_none_forall (q : List (PyStr × List PyStr)) (k : PyStr)
    (h : assocLookup q k = none) : ∀ kv ∈ q, kv.1 ≠ k := by
  induction q with
  | nil => intro kv hkv; simp at hkv
  | cons kv q ih =>
    rw [assocLookup_cons] at h
    by_cases hk : kv.1 = k
    · rw [if_pos hk] at h; simp at h
    · rw [if_neg hk] at h
      intro kw hkw
      rcases List.mem_cons.mp hkw with rfl | hkw
      · exact hk
      · exact ih h kw hkw

theorem assocLookup_eq_none (q : List (PyStr × List PyStr)) (k : PyStr)
    (h : ∀ kv ∈ q, kv.1 ≠ k) : assocLookup q k = none := by
  induction q with
  | nil => rfl
  | cons kv q ih =>
    rw [assocLookup_cons, if_neg (h kv (List.mem_cons_self _ _))]
    exact ih (fun kw hkw => h kw (List.mem_cons_of_mem _ hkw))

theorem assocLookup_some_mem (q : List (PyStr × List PyStr)) (k : PyStr)
    (v : List PyStr) (h : assocLookup q k = some v) : (k, v) ∈ q := by
  induction q with
  | nil => simp [assocLookup] at h
  | cons kv q ih =>
    rw [assocLookup_cons] at h
    by_cases hk : kv.1 = k
    · rw [if_pos hk] at h
      injection h with h
      refine List.mem_cons.mpr (Or.inl ?_)
      rw [← hk, ← h]
    · rw [if_neg hk] at h
      exact List.mem_cons_of_mem _ (ih h)

theorem assocLookup_append_left (a b : List (PyStr × List PyStr)) (k : PyStr)
    (v : List PyStr) (h : assocLookup a k = some v) :
    assocLookup (a ++ b) k = some v := by
  induction a with
  | nil => simp [assocLookup] at h
  | cons kv a ih =>
    rw [assocLookup_cons] at h
    rw [List.cons_append, assocLookup_cons]
    by_cases hk : kv.1 = k
    · rw [if_pos hk] at h ⊢; exact h
    · rw [if_neg hk] at h ⊢; exact ih h

theorem assocLookup_append_right (a b : List (PyStr × List PyStr)) (k : PyStr)
    (h : assocLookup a k = none) : assocLookup (a ++ b) k = assocLookup b k := by
  induction a with
  | nil => rfl
  | cons kv a ih =>
    rw [assocLookup_cons] at h
    rw [List.cons_append, assocLookup_cons]
    by_cases hk : kv.1 = k
    · rw [if_pos hk] at h; simp at h
    · rw [if_neg hk] at h ⊢; exact ih h

/-! ### The query rewrite steps of `normalize_url` -/

theorem popPaging_cons (kv : PyStr × List PyStr) (q : List (PyStr × List PyStr)) :
    popPaging (kv :: q) =
      if kv.1 ≠ bs "page" ∧ kv.1 ≠ bs "size" ∧ kv.1 ≠ bs "end_id"
      then kv :: popPaging q else popPaging q := by
  unfold popPaging
  rw [List.filter_cons]
  by_cases hp : kv.1 ≠ bs "page" ∧ kv.1 ≠ bs "size" ∧ kv.1 ≠ bs "end_id"
  · rw [if_pos (decide_eq_true hp), if_pos hp]
  · rw [if_neg (by simpa using hp), if_neg hp]

theorem popPaging_keys (q : List (PyStr × List PyStr)) :
    ∀ kv ∈ popPaging q,
      kv.1 ≠ bs "page" ∧ kv.1 ≠ bs "size" ∧ kv.1 ≠ bs "end_id" := by
  intro kv hkv
  unfold popPaging at hkv
  have h := (List.mem_filter.mp hkv).2
  simpa using h

theorem mem_popPaging (q : List (PyStr × List PyStr)) :
    ∀ kv ∈ popPaging q, kv ∈ q := by
  intro kv hkv
  exact (List.mem_filter.mp hkv).1

theorem popPaging_eq_self (q : List (PyStr × List PyStr))
    (h : ∀ kv ∈ q, kv.1 ≠ bs "page" ∧ kv.1 ≠ bs "size" ∧ kv.1 ≠ bs "end_id") :
    popPaging q = q := by
  unfold popPaging
  exact List.filter_eq_self.mpr (fun kv hkv => decide_eq_true (h kv hkv))

theorem assocLookup_popPaging (q : List (PyStr × List PyStr)) (k : PyStr)
    (h1 : k ≠ bs "page") (h2 : k ≠ bs "size") (h3 : k ≠ bs "end_id") :
    assocLookup (popPaging q) k = assocLookup q k := by
  induction q with
  | nil => rfl
  | cons kv q ih =>
    rw [popPaging_cons, assocLookup_cons]
    by_cases hp : kv.1 ≠ bs "page" ∧ kv.1 ≠ bs "size" ∧ kv.1 ≠ bs "end_id"
    · rw [if_pos hp, assocLookup_cons, ih]
    · rw [if_neg hp, ih]
      have hne : kv.1 ≠ k := by
        rcases not_and_or.mp hp with h | h
        · push_neg at h
          exact fun hh => h1 (by rw [← hh, h])
        · rcases not_and_or.mp h with h | h
          · push_neg at h
            exact fun hh => h2 (by rw [← hh, h])
          · push_neg at h
            exact fun hh => h3 (by rw [← hh, h])
      rw [if_neg hne]

theorem setdefaultLang_lookup_lang (q : List (PyStr × List PyStr)) :
    assocLookup (setdefaultLang q) (bs "lang") =
      some ((assocLookup q (bs "lang")).getD [bs "en"]) := by
  unfold setdefaultLang
  cases hl : assocLookup q (bs "lang") with
  | some v =>
    simp only [Option.isSome_some, if_true, Option.getD_some]
    exact hl
  | none =>
    simp only [Option.isSome_none, Bool.false_eq_true, if_false, Option.getD_none]
    rw [assocLookup_append_right q _ _ hl]
    rfl

theorem setdefaultLang_lookup_ne (q : List (PyStr × List PyStr)) (k : PyStr)
    (hk : k ≠ bs "lang") :
    assocLookup (setdefaultLang q) k = assocLookup q k := by
  unfold setdefaultLang
  by_cases hs : (assocLookup q (bs "lang")).isSome = true
  · rw [if_pos hs]
  · rw [if_neg hs]
    cases hl : assocLookup q k with
    | some v => exact assocLookup_append_left q _ k v hl
    | none =>
      rw [assocLookup_append_right q _ k hl, assocLookup_cons]
      rw [if_neg (fun hh : bs "lang" = k => hk hh.symm)]
      rfl

theorem mem_setdefaultLang (q : List (PyStr × List PyStr)) :
    ∀ kv ∈ setdefaultLang q, kv ∈ q ∨ kv = (bs "lang", [bs "en"]) := by
  intro kv hkv
  unfold setdefaultLang at hkv
  by_cases hs : (assocLookup q (bs "lang")).isSome = true
  · rw [if_pos hs] at hkv; exact Or.inl hkv
  · rw [if_neg hs] at hkv
    rcases List.mem_append.mp hkv with h | h
    · exact Or.inl h
    · simp at h
      exact Or.inr h

theorem lookup_mapSet (q : List (PyStr × List PyStr)) (k : PyStr) (v : List PyStr)
    (hs : (assocLookup q k).isSome = true) :
    assocLookup (q.map (fun kv => if kv.1 = k then (kv.1, v) else kv)) k = some v := by
  induction q with
  | nil => simp [assocLookup] at hs
  | cons kv q ih =>
    rw [List.map_cons]
    by_cases hk : kv.1 = k
    · rw [if_pos hk, assocLookup_cons, if_pos hk]
    · rw [if_neg hk, assocLookup_cons, if_neg hk]
      rw [assocLookup_cons, if_neg hk] at hs
      exact ih hs

theorem lookup_mapSet_ne (q : List (PyStr × List PyStr)) (k : PyStr) (v : List PyStr)
    (k2 : PyStr) (hk : k2 ≠ k) :
    assocLookup (q.map (fun kv => if kv.1 = k then (kv.1, v) else kv)) k2 =
      assocLookup q k2 := by
  induction q with
  | nil => rfl
  | cons kv q ih =>
    rw [List.map_cons]
    by_cases hkk : kv.1 = k
    · rw [if_pos hkk, assocLookup_cons, assocLookup_cons]
      have hne : kv.1 ≠ k2 := by rw [hkk]; exact fun hh => hk hh.symm
      rw [if_neg hne, if_neg hne, ih]
    · rw [if_neg hkk, assocLookup_cons, assocLookup_cons]
      by_cases hk2 : kv.1 = k2
      · rw [if_pos hk2, if_pos hk2]
      · rw [if_neg hk2, if_neg hk2, ih]

theorem assocLookup_setKey_self (q : List (PyStr × List PyStr)) (k : PyStr)
    (v : List PyStr) : assocLookup (setKey q k v) k = some v := by
  unfold setKey
  by_cases hs : (assocLookup q k).isSome = true
  · rw [if_pos hs]
    exact lookup_mapSet q k v hs
  · rw [if_neg hs]
    have hn : assocLookup q k = none := by
      cases hq : assocLookup q k with
      | none => rfl
      | some w => rw [hq] at hs; simp at hs
    rw [assocLookup_append_right q _ k hn, assocLookup_cons, if_pos rfl]

theorem assocLookup_setKey_ne (q : List (PyStr × List PyStr)) (k : PyStr)
    (v : List PyStr) (k2 : PyStr) (hk : k2 ≠ k) :
    assocLookup (setKey q k v) k2 = assocLookup q k2 := by
  unfold setKey
  by_cases hs : (assocLookup q k).isSome = true
  · rw [if_pos hs]
    exact lookup_mapSet_ne q k v k2 hk
  · rw [if_neg hs]
    cases hl : assocLookup q k2 with
    | some w => exact assocLookup_append_left q _ k2 w hl
    | none =>
      rw [assocLookup_append_right q _ k2 hl, assocLookup_cons]
      rw [if_neg (fun hh : k = k2 => hk hh.symm)]
      rfl

theorem mem_setKey (q : List (PyStr × List PyStr)) (k : PyStr) (v : List PyStr) :
    ∀ kv ∈ setKey q k v, kv ∈ q ∨ (kv.1 = k ∧ kv.2 = v) := by
  intro kv hkv
  unfold setKey at hkv
  by_cases hs : (assocLookup q k).isSome = true
  · rw [if_pos hs] at hkv
    rcases List.mem_map.mp hkv with ⟨kw, hkw, heq⟩
    by_cases hkk : kw.1 = k
    · rw [if_pos hkk] at heq
      rw [← heq]
      exact Or.inr ⟨hkk, rfl⟩
    · rw [if_neg hkk] at heq
      rw [← heq]
      exact Or.inl hkw
  · rw [if_neg hs] at hkv
    rcases List.mem_append.mp hkv with h | h
    · exact Or.inl h
    · simp at h
      rw [h]
      exact Or.inr ⟨rfl, rfl⟩

/-! ### `urlparse` pieces -/

theorem pyQuery_eq (u : PyStr) :
    pyQuery u = pyQueryPart (pyBeforeFrag (pyAfterScheme u)) := rfl

theorem schemeSplit_none (url : PyStr) (h : splitFirstByte 58 url = none) :
    schemeSplit url = ([], url) := by
  unfold schemeSplit
  rw [h]

theorem schemeSplit_some_pos (url : PyStr) (kv : PyStr × PyStr)
    (hsp : splitFirstByte 58 url = some kv) (hc : schemeCond kv.1) :
    schemeSplit url = (kv.1.map lowerB, kv.2) := by
  unfold schemeSplit
  rw [hsp]
  exact if_pos hc

theorem schemeSplit_some_neg (url : PyStr) (kv : PyStr × PyStr)
    (hsp : splitFirstByte 58 url = some kv) (hc : ¬schemeCond kv.1) :
    schemeSplit url = ([], url) := by
  unfold schemeSplit
  rw [hsp]
  exact if_neg hc

theorem schemeSplit_snd_mem (url : PyStr) : ∀ b ∈ (schemeSplit url).2, b ∈ url := by
  cases hsp : splitFirstByte 58 url with
  | none => rw [schemeSplit_none url hsp]; exact fun b hb => hb
  | some kv =>
    by_cases hc : schemeCond kv.1
    · rw [schemeSplit_some_pos url kv hsp hc]
      exact fun b hb => (splitFirstByte_mem 58 url kv.1 kv.2 hsp).2 b hb
    · rw [schemeSplit_some_neg url kv hsp hc]
      exact fun b hb => hb

theorem pyBeforeFrag_mem (s : PyStr) : ∀ b ∈ pyBeforeFrag s, b ∈ s := by
  unfold pyBeforeFrag
  cases hsp : splitFirstByte 35 s with
  | none => exact fun b hb => hb
  | some kv => exact fun b hb => (splitFirstByte_mem 35 s kv.1 kv.2 hsp).1 b hb

theorem pyQueryPart_mem (s : PyStr) : ∀ b ∈ pyQueryPart s, b ∈ s := by
  unfold pyQueryPart
  cases hsp : splitFirstByte 63 s with
  | none => intro b hb; simp at hb
  | some kv => exact fun b hb => (splitFirstByte_mem 63 s kv.1 kv.2 hsp).2 b hb

theorem pyAfterScheme_mem (u : PyStr) : ∀ b ∈ pyAfterScheme u, b ∈ u := by
  intro b hb
  have h1 := schemeSplit_snd_mem (removeUnsafe (lstripC0 u)) b hb
  have h2 := (List.mem_filter.mp h1).1
  exact (List.dropWhile_sublist _).subset h2

theorem pyQuery_mem (u : PyStr) : ∀ b ∈ pyQuery u, b ∈ u := by
  intro b hb
  rw [pyQuery_eq] at hb
  exact pyAfterScheme_mem u b
    (pyBeforeFrag_mem _ b (pyQueryPart_mem _ b hb))

/-! ### Properties of `normQuery` -/

theorem gamebizFor_ne_nil (r : PyStr) : gamebizFor r ≠ [] := by
  unfold gamebizFor
  by_cases h : r = bs "global"
  · rw [if_pos h]; decide
  · rw [if_neg h]; decide

theorem gamebizFor_bytes (r : PyStr) : ∀ b ∈ gamebizFor r, b < 256 := by
  unfold gamebizFor
  by_cases h : r = bs "global"
  · rw [if_pos h]; decide
  · rw [if_neg h]; decide

theorem normQuery_keys (u r : PyStr) :
    ∀ kv ∈ normQuery u r,
      kv.1 ≠ bs "page" ∧ kv.1 ≠ bs "size" ∧ kv.1 ≠ bs "end_id" := by
  intro kv hkv
  unfold normQuery fixGamebiz at hkv
  by_cases hb : gamebizBad (setdefaultLang (popPaging (parse_qs (pyQuery u)))) = true
  · rw [if_pos hb] at hkv
    rcases mem_setKey _ _ _ kv hkv with h | h
    · rcases mem_setdefaultLang _ kv h with h2 | h2
      · exact popPaging_keys _ kv h2
      · rw [h2]
        exact ⟨by decide, by decide, by decide⟩
    · rw [h.1]
      exact ⟨by decide, by decide, by decide⟩
  · rw [if_neg hb] at hkv
    rcases mem_setdefaultLang _ kv hkv with h2 | h2
    · exact popPaging_keys _ kv h2
    · rw [h2]
      exact ⟨by decide, by decide, by decide⟩

theorem normQuery_vals (u r : PyStr) :
    ∀ kv ∈ normQuery u r, kv.2 ≠ [] ∧ ∀ v ∈ kv.2, v ≠ [] := by
  intro kv hkv
  unfold normQuery fixGamebiz at hkv
  have hbase : ∀ kw, kw ∈ popPaging (parse_qs (pyQuery u)) →
      kw.2 ≠ [] ∧ ∀ v ∈ kw.2, v ≠ [] :=
    fun kw hkw => parse_qs_vals (pyQuery u) kw (mem_popPaging _ kw hkw)
  by_cases hb : gamebizBad (setdefaultLang (popPaging (parse_qs (pyQuery u)))) = true
  · rw [if_pos hb] at hkv
    rcases mem_setKey _ _ _ kv hkv with h | h
    · rcases mem_setdefaultLang _ kv h with h2 | h2
      · exact hbase kv h2
      · rw [h2]
        refine ⟨by simp, ?_⟩
        intro v hv
        simp at hv
        rw [hv]
        decide
    · rw [h.2]
      refine ⟨by simp, ?_⟩
      intro v hv
      simp at hv
      rw [hv]
      exact gamebizFor_ne_nil r
  · rw [if_neg hb] at hkv
    rcases mem_setdefaultLang _ kv hkv with h2 | h2
    · exact hbase kv h2
    · rw [h2]
      refine ⟨by simp, ?_⟩
      intro v hv
      simp at hv
      rw [hv]
      decide

theorem normQuery_bytes (u r : PyStr) (hu : ∀ b ∈ u, b < 256) :
    ∀ kv ∈ normQuery u r,
      (∀ b ∈ kv.1, b < 256) ∧ ∀ v ∈ kv.2, ∀ b ∈ v, b < 256 := by
  intro kv hkv
  unfold normQuery fixGamebiz at hkv
  have hbase : ∀ kw, kw ∈ popPaging (parse_qs (pyQuery u)) →
      (∀ b ∈ kw.1, b < 256) ∧ ∀ v ∈ kw.2, ∀ b ∈ v, b < 256 :=
    fun kw hkw => parse_qs_bytes (pyQuery u)
      (fun b hb => hu b (pyQuery_mem u b hb)) kw (mem_popPaging _ kw hkw)
  by_cases hb : gamebizBad (setdefaultLang (popPaging (parse_qs (pyQuery u)))) = true
  · rw [if_pos hb] at hkv
    rcases mem_setKey _ _ _ kv hkv with h | h
    · rcases mem_setdefaultLang _ kv h with h2 | h2
      · exact hbase kv h2
      · rw [h2]
        refine ⟨by decide, ?_⟩
        intro v hv
        simp at hv
        rw [hv]
        decide
    · refine ⟨by rw [h.1]; decide, ?_⟩
      rw [h.2]
      intro v hv
      simp at hv
      rw [hv]
      exact gamebizFor_bytes r
  · rw [if_neg hb] at hkv
    rcases mem_setdefaultLang _ kv hkv with h2 | h2
    · exact hbase kv h2
    · rw [h2]
      refine ⟨by decide, ?_⟩
      intro v hv
      simp at hv
      rw [hv]
      decide

theorem normQuery_pairwise (u r : PyStr) :
    List.Pairwise (fun a b => a.1 ≠ b.1) (normQuery u r) := by
  have h1 : List.Pairwise (fun a b : PyStr × List PyStr => a.1 ≠ b.1)
      (popPaging (parse_qs (pyQuery u))) :=
    List.Pairwise.sublist (List.filter_sublist _) (parse_qs_pairwise (pyQuery u))
  have h2 : List.Pairwise (fun a b : PyStr × List PyStr => a.1 ≠ b.1)
      (setdefaultLang (popPaging (parse_qs (pyQuery u)))) := by
    unfold setdefaultLang
    by_cases hs : (assocLookup (popPaging (parse_qs (pyQuery u))) (bs "lang")).isSome = true
    · rw [if_pos hs]; exact h1
    · rw [if_neg hs]
      have hn : assocLookup (popPaging (parse_qs (pyQuery u))) (bs "lang") = none := by
        cases hq : assocLookup (popPaging (parse_qs (pyQuery u))) (bs "lang") with
        | none => rfl
        | some w => rw [hq] at hs; simp at hs
      refine List.pairwise_append.mpr ⟨h1, by simp, ?_⟩
      intro a ha b hb
      simp at hb
      rw [hb]
      exact assocLookup_none_forall _ _ hn a ha
  unfold normQuery fixGamebiz
  by_cases hbd : gamebizBad (setdefaultLang (popPaging (parse_qs (pyQuery u)))) = true
  · rw [if_pos hbd]
    unfold setKey
    by_cases hs2 : (assocLookup (setdefaultLang (popPaging (parse_qs (pyQuery u))))
        (bs "game_biz")).isSome = true
    · rw [if_pos hs2]
      have hfst : ∀ kv : PyStr × List PyStr,
          ((if kv.1 = bs "game_biz" then (kv.1, [gamebizFor r]) else kv) :
            PyStr × List PyStr).1 = kv.1 := by
        intro kv
        by_cases h : kv.1 = bs "game_biz" <;> simp [h]
      refine List.Pairwise.map _ ?_ h2
      intro a b hab
      rw [hfst a, hfst b]
      exact hab
    · rw [if_neg hs2]
      have hn : assocLookup (setdefaultLang (popPaging (parse_qs (pyQuery u))))
          (bs "game_biz") = none := by
        cases hq : assocLookup (setdefaultLang (popPaging (parse_qs (pyQuery u))))
            (bs "game_biz") with
        | none => rfl
        | some w => rw [hq] at hs2; simp at hs2
      refine List.pairwise_append.mpr ⟨h2, by simp, ?_⟩
      intro a ha b hb
      simp at hb
      rw [hb]
      exact assocLookup_none_forall _ _ hn a ha
  · rw [if_neg hbd]
    exact h2

theorem normQuery_good (u r : PyStr) (hu : ∀ b ∈ u, b < 256) :
    GoodDict (normQuery u r) := by
  refine ⟨normQuery_pairwise u r, ?_⟩
  intro kv hkv
  exact ⟨(normQuery_bytes u r hu kv hkv).1, (normQuery_vals u r kv hkv).1,
    fun v hv => ⟨(normQuery_vals u r kv hkv).2 v hv,
      (normQuery_bytes u r hu kv hkv).2 v hv⟩⟩

theorem normQuery_lang (u r : PyStr) :
    assocLookup (normQuery u r) (bs "lang") =
      some ((assocLookup (popPaging (parse_qs (pyQuery u))) (bs "lang")).getD
        [bs "en"]) := by
  unfold normQuery fixGamebiz
  by_cases hb : gamebizBad (setdefaultLang (popPaging (parse_qs (pyQuery u)))) = true
  · rw [if_pos hb, assocLookup_setKey_ne _ _ _ _ (by decide),
      setdefaultLang_lookup_lang]
  · rw [if_neg hb, setdefaultLang_lookup_lang]

theorem normQuery_gamebiz (u r : PyStr) :
    ∃ v vs, assocLookup (normQuery u r) (bs "game_biz") = some (v :: vs) ∧ v ≠ [] := by
  unfold normQuery fixGamebiz
  by_cases hb : gamebizBad (setdefaultLang (popPaging (parse_qs (pyQuery u)))) = true
  · rw [if_pos hb, assocLookup_setKey_self]
    exact ⟨gamebizFor r, [], rfl, gamebizFor_ne_nil r⟩
  · rw [if_neg hb]
    unfold gamebizBad at hb
    cases hl : assocLookup (setdefaultLang (popPaging (parse_qs (pyQuery u))))
        (bs "game_biz") with
    | none => rw [hl] at hb; simp at hb
    | some vs =>
      rw [hl] at hb
      cases vs with
      | nil => simp at hb
      | cons v vs2 =>
        refine ⟨v, vs2, rfl, ?_⟩
        intro hveq
        rw [hveq] at hb
        simp at hb

theorem gamebizBad_normQuery (u r : PyStr) : gamebizBad (normQuery u r) = false := by
  rcases normQuery_gamebiz u r with ⟨v, vs, hl, hv⟩
  unfold gamebizBad
  rw [hl]
  simpa using hv

theorem normQuery_fix_id (u r : PyStr) :
    fixGamebiz (setdefaultLang (popPaging (normQuery u r))) r = normQuery u r := by
  have hpop : popPaging (normQuery u r) = normQuery u r :=
    popPaging_eq_self _ (normQuery_keys u r)
  rw [hpop]
  have hsd : setdefaultLang (normQuery u r) = normQuery u r := by
    unfold setdefaultLang
    rw [normQuery_lang u r]
    simp
  rw [hsd]
  unfold fixGamebiz
  rw [gamebizBad_normQuery u r]
  simp

/-! ### The constructed URL parses back into its components -/

theorem schemeCharB_props (b : Nat) (h : schemeCharB b = true) :
    32 < b ∧ b ≠ 58 ∧ b ≠ 9 ∧ b ≠ 10 ∧ b ≠ 13 ∧ b ≠ 35 ∧ b ≠ 63 := by
  simp [schemeCharB, isAlphaB, isDigitB] at h
  omega

theorem isAlphaB_props (b : Nat) (h : isAlphaB b = true) : 65 ≤ b ∧ b ≤ 122 := by
  simp [isAlphaB] at h
  omega

theorem lowerB_alpha (b : Nat) (h : isAlphaB b = true) : isAlphaB (lowerB b) = true := by
  unfold lowerB
  simp [isAlphaB] at h ⊢
  by_cases hb : 65 ≤ b ∧ b ≤ 90
  · rw [if_pos hb]; omega
  · rw [if_neg hb]; omega

theorem lowerB_schemeChar (b : Nat) (h : schemeCharB b = true) :
    schemeCharB (lowerB b) = true := by
  unfold lowerB
  by_cases hb : 65 ≤ b ∧ b ≤ 90
  · rw [if_pos hb]
    simp [schemeCharB, isAlphaB, isDigitB]
    omega
  · rw [if_neg hb]
    exact h

theorem lowerB_idem (b : Nat) : lowerB (lowerB b) = lowerB b := by
  unfold lowerB
  by_cases hb : 65 ≤ b ∧ b ≤ 90
  · rw [if_pos hb, if_neg (by omega)]
  · rw [if_neg hb, if_neg hb]

theorem mem_joinSep (segs : List PyStr) (b : Nat) (h : b ∈ joinSep 38 segs) :
    b = 38 ∨ ∃ seg ∈ segs, b ∈ seg := by
  induction segs with
  | nil => simp [joinSep] at h
  | cons seg rest ih =>
    cases rest with
    | nil =>
      rw [show joinSep 38 [seg] = seg from rfl] at h
      exact Or.inr ⟨seg, List.mem_cons_self _ _, h⟩
    | cons seg2 rest2 =>
      rw [joinSep_cons_cons] at h
      rcases List.mem_append.mp h with h | h
      · exact Or.inr ⟨seg, List.mem_cons_self _ _, h⟩
      · rcases List.mem_cons.mp h with rfl | h
        · exact Or.inl rfl
        · rcases ih h with h | ⟨sg, hsg, hbs⟩
          · exact Or.inl h
          · exact Or.inr ⟨sg, List.mem_cons_of_mem _ hsg, hbs⟩

theorem mem_segments_form (q : List (PyStr × List PyStr)) (seg : PyStr)
    (h : seg ∈ (q.map encPair).flatten) :
    ∃ k v : PyStr, seg = quote_plus k ++ 61 :: quote_plus v := by
  rcases List.mem_flatten.mp h with ⟨l, hl, hsegl⟩
  rcases List.mem_map.mp hl with ⟨kv, _, rfl⟩
  rcases List.mem_map.mp hsegl with ⟨v, _, rfl⟩
  exact ⟨kv.1, v, rfl⟩

theorem mem_urlencode (q : List (PyStr × List PyStr)) (b : Nat)
    (h : b ∈ urlencode q) : QOut b ∨ b = 61 ∨ b = 38 := by
  unfold urlencode at h
  rcases mem_joinSep _ b h with rfl | ⟨seg, hseg, hb⟩
  · exact Or.inr (Or.inr rfl)
  · rcases mem_segments_form q seg hseg with ⟨k, v, rfl⟩
    rcases List.mem_append.mp hb with hb | hb
    · exact Or.inl (mem_quote_plus k b hb)
    · rcases List.mem_cons.mp hb with rfl | hb
      · exact Or.inr (Or.inl rfl)
      · exact Or.inl (mem_quote_plus v b hb)

theorem urlencode_byte_props (q : List (PyStr × List PyStr)) (b : Nat)
    (h : b ∈ urlencode q) : b ≠ 9 ∧ b ≠ 10 ∧ b ≠ 13 ∧ b ≠ 35 := by
  rcases mem_urlencode q b h with hq | rfl | rfl
  · obtain ⟨_, _, _, h35, h9, h10, h13, _⟩ := QOut_ne b hq
    exact ⟨h9, h10, h13, h35⟩
  · refine ⟨?_, ?_, ?_, ?_⟩ <;> decide
  · refine ⟨?_, ?_, ?_, ?_⟩ <;> decide

theorem urlencode_ne_nil (q : List (PyStr × List PyStr)) (kv : PyStr × List PyStr)
    (hkv : kv ∈ q) (hne : kv.2 ≠ []) : urlencode q ≠ [] := by
  rcases List.exists_cons_of_ne_nil hne with ⟨v, vs, hv⟩
  have hseg : (quote_plus kv.1 ++ 61 :: quote_plus v) ∈ (q.map encPair).flatten := by
    refine List.mem_flatten.mpr ⟨encPair kv, List.mem_map_of_mem _ hkv, ?_⟩
    show _ ∈ kv.2.map (fun w => quote_plus kv.1 ++ 61 :: quote_plus w)
    rw [hv]
    exact List.mem_cons_self _ _
  unfold urlencode
  revert hseg
  generalize ((q.map encPair).flatten) = segs
  intro hseg
  cases segs with
  | nil => simp at hseg
  | cons s rest =>
    cases rest with
    | nil =>
      rcases List.mem_singleton.mp hseg with rfl
      rw [show joinSep 38 [quote_plus kv.1 ++ 61 :: quote_plus v] =
        quote_plus kv.1 ++ 61 :: quote_plus v from rfl]
      simp
    | cons s2 r2 =>
      rw [joinSep_cons_cons]
      simp

theorem urlencode_normQuery_ne_nil (u r : PyStr) :
    urlencode (normQuery u r) ≠ [] := by
  have hl := normQuery_lang u r
  have hmem := assocLookup_some_mem _ _ _ hl
  refine urlencode_ne_nil _ _ hmem ?_
  show ((assocLookup (popPaging (parse_qs (pyQuery u))) (bs "lang")).getD
    [bs "en"]) ≠ []
  cases hpl : assocLookup (popPaging (parse_qs (pyQuery u))) (bs "lang") with
  | none => simp
  | some w =>
    simp only [Option.getD_some]
    exact (parse_qs_vals (pyQuery u) _
      (mem_popPaging _ _ (assocLookup_some_mem _ _ _ hpl))).1

theorem pySchemeOf_spec (u : PyStr) :
    pySchemeOf u = [] ∨
      (pySchemeOf u ≠ [] ∧
        (∃ b rest, pySchemeOf u = b :: rest ∧ isAlphaB b = true) ∧
        (pySchemeOf u).all schemeCharB = true ∧
        (pySchemeOf u).map lowerB = pySchemeOf u) := by
  unfold pySchemeOf
  cases hsp : splitFirstByte 58 (removeUnsafe (lstripC0 u)) with
  | none => rw [schemeSplit_none _ hsp]; exact Or.inl rfl
  | some kv =>
    by_cases hc : schemeCond kv.1
    · rw [schemeSplit_some_pos _ kv hsp hc]
      obtain ⟨hne, hhead, hall⟩ := hc
      rcases List.exists_cons_of_ne_nil hne with ⟨b0, rest0, hb0⟩
      have hb0a : isAlphaB b0 = true := by
        rw [hb0] at hhead
        simpa using hhead
      refine Or.inr ⟨?_, ⟨lowerB b0, rest0.map lowerB, ?_, lowerB_alpha b0 hb0a⟩, ?_, ?_⟩
      · show kv.1.map lowerB ≠ []
        rw [hb0]
        simp
      · show kv.1.map lowerB = _
        rw [hb0]
        rfl
      · show (kv.1.map lowerB).all schemeCharB = true
        rw [List.all_eq_true] at hall ⊢
        intro x hx
        rcases List.mem_map.mp hx with ⟨y, hy, rfl⟩
        exact lowerB_schemeChar y (hall y hy)
      · show (kv.1.map lowerB).map lowerB = kv.1.map lowerB
        rw [List.map_map]
        exact List.map_congr_left (fun a _ => lowerB_idem a)
    · rw [schemeSplit_some_neg _ kv hsp hc]; exact Or.inl rfl

theorem schemeOrHttps_spec (u : PyStr) :
    schemeOrHttps u ≠ [] ∧
      (∃ b rest, schemeOrHttps u = b :: rest ∧ isAlphaB b = true) ∧
      (schemeOrHttps u).all schemeCharB = true ∧
      (schemeOrHttps u).map lowerB = schemeOrHttps u := by
  have hdef : schemeOrHttps u =
      if pySchemeOf u = [] then bs "https" else pySchemeOf u := rfl
  rcases pySchemeOf_spec u with h | ⟨h1, h2, h3, h4⟩
  · rw [hdef, h, if_pos rfl]
    exact ⟨by decide, ⟨104, bs "ttps", by decide, by decide⟩, by decide, by decide⟩
  · rw [hdef, if_neg h1]
    exact ⟨h1, h2, h3, h4⟩

theorem hostFor_clean (r : PyStr) :
    ∀ b ∈ hostFor r, ¬(b = 9 ∨ b = 10 ∨ b = 13) ∧ b ≠ 35 ∧ b ≠ 63 := by
  unfold hostFor
  by_cases h : r = bs "global"
  · rw [if_pos h]; decide
  · rw [if_neg h]; decide

theorem endpointPath_clean :
    ∀ b ∈ endpointPath, ¬(b = 9 ∨ b = 10 ∨ b = 13) ∧ b ≠ 35 ∧ b ≠ 63 := by
  decide

theorem normalize_url_def (u r : PyStr) :
    normalize_url u r =
      schemeOrHttps u ++ bs "://" ++ hostFor r ++ endpointPath ++
        (if urlencode (normQuery u r) = [] then []
         else 63 :: urlencode (normQuery u r)) := rfl

theorem normalize_url_shape (u r : PyStr) :
    normalize_url u r = schemeOrHttps u ++ 58 :: (47 :: 47 :: (hostFor r ++
      (endpointPath ++ 63 :: urlencode (normQuery u r)))) := by
  rw [normalize_url_def u r, if_neg (urlencode_normQuery_ne_nil u r)]
  rw [show bs "://" = [58, 47, 47] from by decide]
  simp [List.append_assoc]

theorem normalize_url_parts (u r : PyStr) :
    pySchemeOf (normalize_url u r) = schemeOrHttps u ∧
    pyQuery (normalize_url u r) = urlencode (normQuery u r) := by
  obtain ⟨hSne, ⟨b0, S0, hS, hb0⟩, hSall, hSmap⟩ := schemeOrHttps_spec u
  have hN := normalize_url_shape u r
  have hTmem : ∀ b ∈ (47 :: 47 :: (hostFor r ++
      (endpointPath ++ 63 :: urlencode (normQuery u r)))),
      ¬(b = 9 ∨ b = 10 ∨ b = 13) ∧ b ≠ 35 := by
    intro b hb
    rcases List.mem_cons.mp hb with rfl | hb
    · exact ⟨by decide, by decide⟩
    rcases List.mem_cons.mp hb with rfl | hb
    · exact ⟨by decide, by decide⟩
    rcases List.mem_append.mp hb with hbH | hb
    · exact ⟨(hostFor_clean r b hbH).1, (hostFor_clean r b hbH).2.1⟩
    rcases List.mem_append.mp hb with hbP | hb
    · exact ⟨(endpointPath_clean b hbP).1, (endpointPath_clean b hbP).2.1⟩
    rcases List.mem_cons.mp hb with rfl | hbE
    · exact ⟨by decide, by decide⟩
    · obtain ⟨n9, n10, n13, n35⟩ := urlencode_byte_props _ b hbE
      refine ⟨?_, n35⟩
      intro hor
      rcases hor with rfl | rfl | rfl
      · exact n9 rfl
      · exact n10 rfl
      · exact n13 rfl
  have hstrip : lstripC0 (schemeOrHttps u ++ 58 ::
      (47 :: 47 :: (hostFor r ++ (endpointPath ++ 63 :: urlencode (normQuery u r))))) =
      schemeOrHttps u ++ 58 ::
      (47 :: 47 :: (hostFor r ++ (endpointPath ++ 63 :: urlencode (normQuery u r)))) := by
    rw [hS, List.cons_append]
    unfold lstripC0
    rw [List.dropWhile_cons]
    have halpha := isAlphaB_props b0 hb0
    rw [if_neg (by simp; omega)]
  have hremove : removeUnsafe (schemeOrHttps u ++ 58 ::
      (47 :: 47 :: (hostFor r ++ (endpointPath ++ 63 :: urlencode (normQuery u r))))) =
      schemeOrHttps u ++ 58 ::
      (47 :: 47 :: (hostFor r ++ (endpointPath ++ 63 :: urlencode (normQuery u r)))) := by
    unfold removeUnsafe
    refine List.filter_eq_self.mpr ?_
    intro b hb
    refine decide_eq_true ?_
    rcases List.mem_append.mp hb with hbS | hbT
    · rw [List.all_eq_true] at hSall
      have hcs := schemeCharB_props b (hSall b hbS)
      omega
    · rcases List.mem_cons.mp hbT with rfl | hbT
      · decide
      · exact (hTmem b hbT).1
  have hS58 : ∀ b ∈ schemeOrHttps u, b ≠ 58 := by
    intro b hbS
    rw [List.all_eq_true] at hSall
    exact (schemeCharB_props b (hSall b hbS)).2.1
  have hsp : splitFirstByte 58 (schemeOrHttps u ++ 58 ::
      (47 :: 47 :: (hostFor r ++ (endpointPath ++ 63 :: urlencode (normQuery u r))))) =
      some (schemeOrHttps u,
        47 :: 47 :: (hostFor r ++ (endpointPath ++ 63 :: urlencode (normQuery u r)))) :=
    splitFirstByte_append 58 _ _ hS58
  have hcond : schemeCond (schemeOrHttps u,
      47 :: 47 :: (hostFor r ++ (endpointPath ++ 63 :: urlencode (normQuery u r)))).1 := by
    refine ⟨hSne, ?_, hSall⟩
    show (match (schemeOrHttps u).head? with
      | some b => isAlphaB b | none => false) = true
    rw [hS]
    simpa using hb0
  have hscheme : schemeSplit (schemeOrHttps u ++ 58 ::
      (47 :: 47 :: (hostFor r ++ (endpointPath ++ 63 :: urlencode (normQuery u r))))) =
      (schemeOrHttps u,
        47 :: 47 :: (hostFor r ++ (endpointPath ++ 63 :: urlencode (normQuery u r)))) := by
    rw [schemeSplit_some_pos _ _ hsp hcond]
    show (List.map lowerB (schemeOrHttps u), _) = _
    rw [hSmap]
  constructor
  · unfold pySchemeOf
    rw [hN, hstrip, hremove, hscheme]
  · rw [pyQuery_eq]
    unfold pyAfterScheme
    rw [hN, hstrip, hremove, hscheme]
    show pyQueryPart (pyBeforeFrag (47 :: 47 :: (hostFor r ++
      (endpointPath ++ 63 :: urlencode (normQuery u r))))) = _
    have hfrag : pyBeforeFrag (47 :: 47 :: (hostFor r ++
        (endpointPath ++ 63 :: urlencode (normQuery u r)))) =
        47 :: 47 :: (hostFor r ++ (endpointPath ++ 63 :: urlencode (normQuery u r))) := by
      unfold pyBeforeFrag
      rw [splitFirstByte_none 35 _ (fun b hb => (hTmem b hb).2)]
    rw [hfrag]
    have hTsplit : 47 :: 47 :: (hostFor r ++
        (endpointPath ++ 63 :: urlencode (normQuery u r))) =
        (47 :: 47 :: (hostFor r ++ endpointPath)) ++
          63 :: urlencode (normQuery u r) := by
      simp [List.append_assoc]
    have hpre63 : ∀ b ∈ (47 :: 47 :: (hostFor r ++ endpointPath)), b ≠ 63 := by
      intro b hb
      rcases List.mem_cons.mp hb with rfl | hb
      · decide
      rcases List.mem_cons.mp hb with rfl | hb
      · decide
      rcases List.mem_append.mp hb with hbH | hbP
      · exact (hostFor_clean r b hbH).2.2
      · exact (endpointPath_clean b hbP).2.2
    unfold pyQueryPart
    rw [hTsplit, splitFirstByte_append 63 _ _ hpre63]

theorem parse_qs_of_normalized (u r : PyStr) (hu : ∀ b ∈ u, b < 256) :
    parse_qs (pyQuery (normalize_url u r)) = normQuery u r := by
  rw [(normalize_url_parts u r).2]
  exact parse_qs_urlencode _ (normQuery_good u r hu)

theorem netlocSafe_not_raises (u : PyStr) (h : netlocSafe u = true) :
    urlsplitRaises u = false := by
  unfold netlocSafe at h
  rw [List.all_eq_true] at h
  have h91 : ¬ (91 ∈ pyNetloc u) := fun hm => by simpa using h 91 hm
  have h93 : ¬ (93 ∈ pyNetloc u) := fun hm => by simpa using h 93 hm
  unfold urlsplitRaises
  simp [h91, h93]

theorem takeWhile_append_all {α : Type} (p : α → Bool) (a b : List α)
    (h : ∀ x ∈ a, p x = true) :
    (a ++ b).takeWhile p = a ++ b.takeWhile p := by
  induction a with
  | nil => rfl
  | cons x a ih =>
    rw [List.cons_append, List.takeWhile_cons, h x (List.mem_cons_self _ _),
      ih (fun y hy => h y (List.mem_cons_of_mem _ hy))]
    rfl

theorem hostFor_pred (r : PyStr) :
    ∀ b ∈ hostFor r, (decide (¬(b = 47 ∨ b = 63 ∨ b = 35))) = true := by
  unfold hostFor
  by_cases h : r = bs "global"
  · rw [if_pos h]; decide
  · rw [if_neg h]; decide

theorem normalize_url_split (u r : PyStr) :
    schemeSplit (removeUnsafe (lstripC0 (normalize_url u r))) =
      (schemeOrHttps u,
        47 :: 47 :: (hostFor r ++ (endpointPath ++ 63 :: urlencode (normQuery u r)))) := by
  obtain ⟨hSne, ⟨b0, S0, hS, hb0⟩, hSall, hSmap⟩ := schemeOrHttps_spec u
  have hN := normalize_url_shape u r
  have hstrip : lstripC0 (schemeOrHttps u ++ 58 ::
      (47 :: 47 :: (hostFor r ++ (endpointPath ++ 63 :: urlencode (normQuery u r))))) =
      schemeOrHttps u ++ 58 ::
      (47 :: 47 :: (hostFor r ++ (endpointPath ++ 63 :: urlencode (normQuery u r)))) := by
    rw [hS, List.cons_append]
    unfold lstripC0
    rw [List.dropWhile_cons]
    have halpha := isAlphaB_props b0 hb0
    rw [if_neg (by simp; omega)]
  have hremove : removeUnsafe (schemeOrHttps u ++ 58 ::
      (47 :: 47 :: (hostFor r ++ (endpointPath ++ 63 :: urlencode (normQuery u r))))) =
      schemeOrHttps u ++ 58 ::
      (47 :: 47 :: (hostFor r ++ (endpointPath ++ 63 :: urlencode (normQuery u r)))) := by
    unfold removeUnsafe
    refine List.filter_eq_self.mpr ?_
    intro b hb
    refine decide_eq_true ?_
    rcases List.mem_append.mp hb with hbS | hbT
    · rw [List.all_eq_true] at hSall
      have hcs := schemeCharB_props b (hSall b hbS)
      omega
    · rcases List.mem_cons.mp hbT with rfl | hbT
      · decide
      rcases List.mem_cons.mp hbT with rfl | hbT
      · decide
      rcases List.mem_cons.mp hbT with rfl | hbT
      · decide
      rcases List.mem_append.mp hbT with hbH | hbT
      · exact (hostFor_clean r b hbH).1
      rcases List.mem_append.mp hbT with hbP | hbT
      · exact (endpointPath_clean b hbP).1
      rcases List.mem_cons.mp hbT with rfl | hbE
      · decide
      · obtain ⟨n9, n10, n13, _⟩ := urlencode_byte_props _ b hbE
        intro hor
        rcases hor with rfl | rfl | rfl
        · exact n9 rfl
        · exact n10 rfl
        · exact n13 rfl
  have hS58 : ∀ b ∈ schemeOrHttps u, b ≠ 58 := by
    intro b hbS
    rw [List.all_eq_true] at hSall
    exact (schemeCharB_props b (hSall b hbS)).2.1
  have hsp : splitFirstByte 58 (schemeOrHttps u ++ 58 ::
      (47 :: 47 :: (hostFor r ++ (endpointPath ++ 63 :: urlencode (normQuery u r))))) =
      some (schemeOrHttps u,
        47 :: 47 :: (hostFor r ++ (endpointPath ++ 63 :: urlencode (normQuery u r)))) :=
    splitFirstByte_append 58 _ _ hS58
  have hcond : schemeCond (schemeOrHttps u,
      47 :: 47 :: (hostFor r ++ (endpointPath ++ 63 :: urlencode (normQuery u r)))).1 := by
    refine ⟨hSne, ?_, hSall⟩
    show (match (schemeOrHttps u).head? with
      | some b => isAlphaB b | none => false) = true
    rw [hS]
    simpa using hb0
  rw [hN, hstrip, hremove, schemeSplit_some_pos _ _ hsp hcond]
  show (List.map lowerB (schemeOrHttps u), _) = _
  rw [hSmap]

theorem pyNetloc_normalized (u r : PyStr) :
    pyNetloc (normalize_url u r) = hostFor r := by
  unfold pyNetloc pyAfterScheme
  rw [normalize_url_split]
  show (hostFor r ++ (endpointPath ++ 63 :: urlencode (normQuery u r))).takeWhile
      (fun b => decide (¬(b = 47 ∨ b = 63 ∨ b = 35))) = hostFor r
  rw [takeWhile_append_all _ _ _ (fun b hb => hostFor_pred r b hb)]
  rw [show endpointPath = 47 :: bs "gacha_info/api/getGachaLog" from by decide]
  rw [List.cons_append, List.takeWhile_cons]
  rw [if_neg (by decide)]
  exact List.append_nil _

theorem netlocSafe_normalized (u r : PyStr) :
    netlocSafe (normalize_url u r) = true := by
  unfold netlocSafe
  rw [pyNetloc_normalized]
  unfold hostFor
  by_cases h : r = bs "global"
  · rw [if_pos h]; decide
  · rw [if_neg h]; decide

/-! ### Claims about the URL Normalizer -/

/-- C7 counterexample: the claim quantifies over every URL string, but on
`"https://[bad/p?page=1"` the authority is `"[bad"` — a `[` with no `]` —
so the program's `urlparse` call raises `ValueError` instead of returning
a value to re-normalize: the for-every-input idempotence statement fails
on the program's actual (partial) domain. -/
theorem normalize_url_idempotent_domain_counterexample :
    pyNetloc (bs "https://[bad/p?page=1") = bs "[bad" ∧
    urlsplitRaises (bs "https://[bad/p?page=1") = true ∧
    netlocSafe (bs "https://[bad/p?page=1") = false := by
  decide

/-- C7 [corrected]: on every input in `normalize_url`'s domain —
authority bracket-free and ASCII, so `urlsplit` cannot raise —
normalization is idempotent: the output's authority is again bracket-free
ASCII (re-normalizing it raises nothing) and re-normalizing reproduces
the output exactly (hence also modulo parameter order); moreover the
normalized query never contains the keys `page`, `size` or `end_id`.
Inputs with an unbalanced bracket in the authority are excluded: there
`urlparse` raises `ValueError` and `normalize_url` propagates it.  The
first hypothesis restricts inputs to genuine byte strings. -/
theorem normalize_url_idempotent (u r : PyStr) (hu : ∀ b ∈ u, b < 256)
    (hn : netlocSafe u = true) :
    urlsplitRaises u = false ∧
    netlocSafe (normalize_url u r) = true ∧
    normalize_url (normalize_url u r) r = normalize_url u r ∧
    (∀ k ∈ [bs "page", bs "size", bs "end_id"],
      assocLookup (parse_qs (pyQuery (normalize_url u r))) k = none) := by
  refine ⟨netlocSafe_not_raises u hn, netlocSafe_normalized u r, ?_, ?_⟩
  · have hq2 : normQuery (normalize_url u r) r = normQuery u r := by
      unfold normQuery
      rw [parse_qs_of_normalized u r hu]
      exact normQuery_fix_id u r
    have hs2 : schemeOrHttps (normalize_url u r) = schemeOrHttps u := by
      have hdef : schemeOrHttps (normalize_url u r) =
          if pySchemeOf (normalize_url u r) = [] then bs "https"
          else pySchemeOf (normalize_url u r) := rfl
      rw [hdef, (normalize_url_parts u r).1,
        if_neg (schemeOrHttps_spec u).1]
    rw [normalize_url_def (normalize_url u r) r, hq2, hs2]
    exact (normalize_url_def u r).symm
  · intro k hk
    rw [parse_qs_of_normalized u r hu]
    refine assocLookup_eq_none _ k ?_
    intro kv hkv
    have hkeys := normQuery_keys u r kv hkv
    rcases List.mem_cons.mp hk with rfl | hk
    · exact hkeys.1
    rcases List.mem_cons.mp hk with rfl | hk
    · exact hkeys.2.1
    rcases List.mem_cons.mp hk with rfl | hk
    · exact hkeys.2.2
    · simp at hk

/-- Witness for C7 at a concrete authkey URL. -/
theorem normalize_url_idempotent_witness :
    ((∀ b ∈ bs "https://hk4e-api.mihoyo.com/x?authkey=ab%20c&page=2&size=20&end_id=7",
        b < 256) ∧
     netlocSafe
       (bs "https://hk4e-api.mihoyo.com/x?authkey=ab%20c&page=2&size=20&end_id=7") =
       true) ∧
    (urlsplitRaises
        (bs "https://hk4e-api.mihoyo.com/x?authkey=ab%20c&page=2&size=20&end_id=7") =
        false ∧
     netlocSafe
        (normalize_url
          (bs "https://hk4e-api.mihoyo.com/x?authkey=ab%20c&page=2&size=20&end_id=7")
          (bs "global")) = true ∧
     normalize_url
        (normalize_url
          (bs "https://hk4e-api.mihoyo.com/x?authkey=ab%20c&page=2&size=20&end_id=7")
          (bs "global"))
        (bs "global") =
      normalize_url
        (bs "https://hk4e-api.mihoyo.com/x?authkey=ab%20c&page=2&size=20&end_id=7")
        (bs "global") ∧
     (∀ k ∈ [bs "page", bs "size", bs "end_id"],
       assocLookup
         (parse_qs (pyQuery (normalize_url
           (bs "https://hk4e-api.mihoyo.com/x?authkey=ab%20c&page=2&size=20&end_id=7")
           (bs "global")))) k = none)) :=
  ⟨⟨by decide, by decide⟩,
   normalize_url_idempotent
     (bs "https://hk4e-api.mihoyo.com/x?authkey=ab%20c&page=2&size=20&end_id=7")
     (bs "global") (by decide) (by decide)⟩

/-- C8 counterexample: `normalize_url` is not total on every input
string — on `"http://[x"` the authority is `"[x"`, whose `[` with no `]`
makes the program's `urlparse` call raise `ValueError` ("Invalid IPv6
URL"), and `normalize_url` has no handler, so the exception propagates
instead of any graceful default being returned. -/
theorem normalize_url_raises_counterexample :
    pyNetloc (bs "http://[x") = bs "[x" ∧
    urlsplitRaises (bs "http://[x") = true ∧
    netlocSafe (bs "http://[x") = false := by
  decide

/-- C8 [corrected]: `normalize_url` does have a failure path — `urlparse`
raises `ValueError` on an authority with an unbalanced bracket and the
exception propagates — but on every input whose authority is bracket-free
ASCII (where `urlsplit` cannot raise) it performs no I/O and returns the
region-selected host with the fixed gacha-log path, a `lang` parameter
defaulted to `en`, a `game_biz` with a non-empty first value defaulted by
region, and every other original query parameter preserved verbatim. -/
theorem normalize_url_defaults (u r : PyStr) (hn : netlocSafe u = true) :
    urlsplitRaises u = false ∧
    (normalize_url u r = schemeOrHttps u ++ bs "://" ++ hostFor r ++ endpointPath ++
      63 :: urlencode (normQuery u r)) ∧
    (assocLookup (normQuery u r) (bs "lang") =
      some ((assocLookup (popPaging (parse_qs (pyQuery u))) (bs "lang")).getD
        [bs "en"])) ∧
    (∃ v vs, assocLookup (normQuery u r) (bs "game_biz") = some (v :: vs) ∧ v ≠ []) ∧
    (∀ k : PyStr, k ≠ bs "page" → k ≠ bs "size" → k ≠ bs "end_id" →
      k ≠ bs "lang" → k ≠ bs "game_biz" →
      assocLookup (normQuery u r) k = assocLookup (parse_qs (pyQuery u)) k) := by
  refine ⟨netlocSafe_not_raises u hn, ?_, normQuery_lang u r, normQuery_gamebiz u r, ?_⟩
  · rw [normalize_url_def u r, if_neg (urlencode_normQuery_ne_nil u r)]
  · intro k h1 h2 h3 h4 h5
    unfold normQuery fixGamebiz
    have hstep1 : assocLookup (setdefaultLang (popPaging (parse_qs (pyQuery u)))) k =
        assocLookup (parse_qs (pyQuery u)) k := by
      rw [setdefaultLang_lookup_ne _ k h4, assocLookup_popPaging _ k h1 h2 h3]
    by_cases hb : gamebizBad (setdefaultLang (popPaging (parse_qs (pyQuery u)))) = true
    · rw [if_pos hb, assocLookup_setKey_ne _ _ _ k h5, hstep1]
    · rw [if_neg hb, hstep1]

/-- Witness for C8 at a concrete URL and parameter. -/
theorem normalize_url_defaults_witness :
    (netlocSafe (bs "https://x.y/z?authkey=k7&page=3") = true ∧
     (bs "authkey" ≠ bs "page") ∧ (bs "authkey" ≠ bs "size") ∧
     (bs "authkey" ≠ bs "end_id") ∧ (bs "authkey" ≠ bs "lang") ∧
     (bs "authkey" ≠ bs "game_biz")) ∧
    assocLookup (normQuery (bs "https://x.y/z?authkey=k7&page=3") (bs "cn"))
        (bs "authkey") =
      assocLookup (parse_qs (pyQuery (bs "https://x.y/z?authkey=k7&page=3")))
        (bs "authkey") :=
  ⟨⟨by decide, by decide, by decide, by decide, by decide, by decide⟩,
   (normalize_url_defaults (bs "https://x.y/z?authkey=k7&page=3") (bs "cn")
       (by decide)).2.2.2.2
     (bs "authkey") (by decide) (by decide) (by decide) (by decide) (by decide)⟩

end GachaFetch
